import Mathlib

/-!
The spec-driven mock server of `server.go` (mock-mgmt).

A shallow embedding of `server.go` and of the library behaviour it relies on.

* `encoding/json`: the values a `map[string]interface{}` can hold (`JSON`), the
  scanner (`scanValue`, `checkValid`, `readValue`), the conversion of scanned
  text to Go values (`valueInterface`, `unmarshalMap`) and `Marshal`.
* `gorm` over SQLite: the table `request_items` (`DB`), `Create` with the
  `BeforeSave` hook and `Find` with the `AfterFind` hook.
* `gin`: `ShouldBindJSON`, `c.JSON` (a `Response`), and the route table built
  by the registration loop of `main`.

Modelling decisions.

* Text is a list of Unicode scalar values: request bodies and stored texts are
  well-formed UTF-8.
* The conversion between `float64` and its decimal text (`strconv`) is a
  parameter, `Strconv`; where a proof needs it, its contract is the hypothesis
  `Strconv.RoundTrips`.
* A failure of the storage engine is an input of `Create` and `Find`
  (`dbFails`), not a part of the database state.
* The router is the list of the registration calls made; how gin matches a
  request against the registered patterns is outside the model.
* The handlers capture the loop variable `path` itself; the loop body binds no
  copy of it.  Whether the closures of different iterations share the variable
  is decided by the language version of the module: one variable for the whole
  loop before Go 1.22, one per iteration since.  No `go.mod` is among the
  sources, so `LoopVar` carries both readings and `registerRoutes` takes the
  reading as an argument.
-/

namespace MockMgmt

/-- Text: a Go `string` or `[]byte` holding well-formed UTF-8. -/
abbrev Text := List Char

/-! ## Values -/

/-- The tree of a JSON text, and the Go values `encoding/json` stores in an
`interface{}`: `nil`, `bool`, a number, `string`, `[]interface{}` and
`map[string]interface{}`.  `N` is the type of numbers: `Text` for the literal
as scanned, a `float64` type for a decoded value.  A Go map is kept as the list
of its entries in ascending key order.  Slices and maps inside a value are not
nil, as the decoder builds them. -/
inductive JSON (N : Type) where
  | null : JSON N
  | bool (b : Bool) : JSON N
  | number (n : N) : JSON N
  | string (s : Text) : JSON N
  | array (xs : List (JSON N)) : JSON N
  | object (ms : List (Text × JSON N)) : JSON N

/-- The entries of a `map[string]interface{}`. -/
abbrev Members (N : Type) := List (Text × JSON N)

/-- Go's `strings.Compare(a, b) < 0`: byte-wise order of the UTF-8 encodings,
which is the lexicographic order of the code points. -/
def keyLess : Text → Text → Bool
  | [], [] => false
  | [], _ :: _ => true
  | _ :: _, [] => false
  | a :: as, b :: bs => if a < b then true else if a = b then keyLess as bs else false

/-- The map assignment `m[k] = v`. -/
def setKey {α : Type} (k : Text) (v : α) : List (Text × α) → List (Text × α)
  | [] => [(k, v)]
  | (k1, v1) :: m =>
    if keyLess k k1 then (k, v) :: (k1, v1) :: m
    else if k = k1 then (k, v) :: m
    else (k1, v1) :: setKey k v m

/-- Assign the pairs of `kvs` to the map `m`, in order. -/
def setKeys {α : Type} (kvs : List (Text × α)) (m : List (Text × α)) : List (Text × α) :=
  kvs.foldl (fun acc kv => setKey kv.1 kv.2 acc) m

/-- The keys of the list are strictly ascending. -/
def ascending : List Text → Bool
  | [] => true
  | [_] => true
  | k1 :: k2 :: ks => keyLess k1 k2 && ascending (k2 :: ks)

mutual
/-- The value is a Go value: every map in it has its entries in strictly
ascending key order (one entry per key). -/
def JSON.isValue {N : Type} : JSON N → Bool
  | .array xs => JSON.isValueList xs
  | .object ms => ascending (ms.map Prod.fst) && JSON.isValueMembers ms
  | _ => true
/-- Every element of the slice is a Go value. -/
def JSON.isValueList {N : Type} : List (JSON N) → Bool
  | [] => true
  | x :: xs => JSON.isValue x && JSON.isValueList xs
/-- Every entry of the map holds a Go value. -/
def JSON.isValueMembers {N : Type} : List (Text × JSON N) → Bool
  | [] => true
  | (_, x) :: ms => JSON.isValue x && JSON.isValueMembers ms
end

mutual
/-- Nesting depth: the number of arrays and objects around the innermost
value, itself included. -/
def JSON.depth {N : Type} : JSON N → Nat
  | .array xs => JSON.depthList xs + 1
  | .object ms => JSON.depthMembers ms + 1
  | _ => 0
/-- The largest depth among the elements. -/
def JSON.depthList {N : Type} : List (JSON N) → Nat
  | [] => 0
  | x :: xs => max (JSON.depth x) (JSON.depthList xs)
/-- The largest depth among the entries. -/
def JSON.depthMembers {N : Type} : List (Text × JSON N) → Nat
  | [] => 0
  | (_, x) :: ms => max (JSON.depth x) (JSON.depthMembers ms)
end

/-! ## strconv -/

/-- The two `strconv` conversions `encoding/json` uses for a `float64`. -/
structure Strconv (F : Type) where
  /-- The text `floatEncoder` writes (`strconv.AppendFloat` with the shortest
  representation); `none` is the `UnsupportedValueError` for NaN and ±Inf. -/
  formatFloat : F → Option Text
  /-- The call `strconv.ParseFloat(s, 64)` on a scanned literal; `none` is a range error. -/
  parseFloat : Text → Option F

/-! ## The scanner of encoding/json -/

/-- The scanner's `isSpace`. -/
def isSpace (c : Char) : Bool := c = ' ' || c = '\t' || c = '\r' || c = '\n'

/-- Drop leading white space. -/
def skipSpace : Text → Text
  | [] => []
  | c :: cs => if isSpace c then skipSpace cs else c :: cs

/-- A decimal digit. -/
def isDigit (c : Char) : Bool := decide ('0' ≤ c) && decide (c ≤ '9')

/-- The longest run of digits at the head, and what follows. -/
def digits : Text → Text × Text
  | [] => ([], [])
  | c :: cs => if isDigit c then ((digits cs).1.cons c, (digits cs).2) else ([], c :: cs)

/-- States `stateE`, `stateESign`, `stateE0`: an optional exponent after the
mantissa `lit`. -/
def scanExp (lit : Text) : Text → Option (Text × Text)
  | [] => some (lit, [])
  | c :: r =>
    if c = 'e' ∨ c = 'E' then
      match r with
      | [] => none
      | s :: r1 =>
        if s = '+' ∨ s = '-' then
          match digits r1 with
          | ([], _) => none
          | (ds, r2) => some (lit ++ c :: s :: ds, r2)
        else
          match digits r with
          | ([], _) => none
          | (ds, r2) => some (lit ++ c :: ds, r2)
    else some (lit, c :: r)

/-- States `stateDot`, `stateDot0`: an optional fraction after the integer part `lit`. -/
def scanFrac (lit : Text) : Text → Option (Text × Text)
  | [] => some (lit, [])
  | c :: r =>
    if c = '.' then
      match digits r with
      | ([], _) => none
      | (ds, r1) => scanExp (lit ++ c :: ds) r1
    else scanExp lit (c :: r)

/-- States `state0`, `state1`: the integer part, after the optional sign `lit`. -/
def scanInt (lit : Text) : Text → Option (Text × Text)
  | [] => none
  | c :: r =>
    if c = '0' then scanFrac (lit ++ [c]) r
    else if isDigit c then scanFrac (lit ++ c :: (digits r).1) (digits r).2
    else none

/-- Scan a number literal at the head of the input: the literal and what
follows it, or `none` when the scanner reports an error inside the literal. -/
def scanNumber : Text → Option (Text × Text)
  | [] => none
  | c :: r => if c = '-' then scanInt [c] r else scanInt [] (c :: r)

/-- The text is exactly one number literal. -/
def numberLiteral (t : Text) : Bool := scanNumber t == some (t, [])

/-- Value of a hexadecimal digit, as in `getu4`. -/
def hexVal (c : Char) : Option Nat :=
  if '0' ≤ c ∧ c ≤ '9' then some (c.toNat - 48)
  else if 'a' ≤ c ∧ c ≤ 'f' then some (c.toNat - 87)
  else if 'A' ≤ c ∧ c ≤ 'F' then some (c.toNat - 55)
  else none

/-- The four hexadecimal digits of a `\u` escape. -/
def hex4 (a b c d : Char) : Option Nat :=
  match hexVal a, hexVal b, hexVal c, hexVal d with
  | some x, some y, some z, some w => some (((x * 16 + y) * 16 + z) * 16 + w)
  | _, _, _, _ => none

/-- The function `getu4`: the code unit of a `\uXXXX` at the head of the text. -/
def getu4 : Text → Option Nat
  | b :: u :: h1 :: h2 :: h3 :: h4 :: _ => if b = '\\' ∧ u = 'u' then hex4 h1 h2 h3 h4 else none
  | _ => none

/-- The function `utf16.IsSurrogate`. -/
def isSurrogate (r : Nat) : Bool := decide (0xd800 ≤ r) && decide (r < 0xe000)

/-- The function `utf16.DecodeRune`; `none` stands for the replacement character it
returns for an invalid pair. -/
def decodeRune (r1 : Nat) (r2 : Option Nat) : Option Nat :=
  match r2 with
  | some r2 =>
    if 0xd800 ≤ r1 ∧ r1 < 0xdc00 ∧ 0xdc00 ≤ r2 ∧ r2 < 0xe000 then
      some ((r1 - 0xd800) * 1024 + (r2 - 0xdc00) + 0x10000)
    else none
  | none => none

/-- The single-character escapes of `unquote`. -/
def unescape (e : Char) : Option Char :=
  if e = '"' ∨ e = '\\' ∨ e = '/' then some e
  else if e = 'b' then some (Char.ofNat 8)
  else if e = 'f' then some (Char.ofNat 12)
  else if e = 'n' then some '\n'
  else if e = 'r' then some '\r'
  else if e = 't' then some '\t'
  else none

/-- Put a decoded character in front of the rest of a scanned string. -/
def prepend (c : Char) (r : Option (Text × Text)) : Option (Text × Text) :=
  match r with
  | some (s, rest) => some (c :: s, rest)
  | none => none

/-- One step of `unquote` at the head of the body of a string literal: the
decoded character and the number of characters of text it stands for.  A
character below U+0020 or a malformed escape is a scanner error.  A `\u`
escape that is half of a surrogate pair is combined with the escape after it
when that one is the other half, and is U+FFFD otherwise. -/
def unquoteStep : Text → Option (Char × Nat)
  | [] => none
  | c :: rest =>
    if c = '\\' then
      match rest with
      | [] => none
      | e :: rest1 =>
        if e = 'u' then
          match rest1 with
          | h1 :: h2 :: h3 :: h4 :: rest2 =>
            match hex4 h1 h2 h3 h4 with
            | none => none
            | some rr =>
              if isSurrogate rr then
                match decodeRune rr (getu4 rest2) with
                | some dec => some (Char.ofNat dec, 12)
                | none => some (Char.ofNat 0xfffd, 6)
              else some (Char.ofNat rr, 6)
          | _ => none
        else
          match unescape e with
          | some ch => some (ch, 2)
          | none => none
    else if c.toNat < 0x20 then none
    else some (c, 1)

/-- The loop of `unquote`, up to the closing quote.  The first argument is the
number of characters still to pass over, those of the escape just decoded. -/
def scanStringFrom : Nat → Text → Option (Text × Text)
  | _, [] => none
  | skip + 1, _ :: rest => scanStringFrom skip rest
  | 0, c :: rest =>
    if c = '"' then some ([], rest)
    else
      match unquoteStep (c :: rest) with
      | some (ch, size) => prepend ch (scanStringFrom (size - 1) rest)
      | none => none

/-- Scan a string literal after its opening quote and decode it: the decoded
string and what follows the closing quote. -/
def scanString (input : Text) : Option (Text × Text) := scanStringFrom 0 input

/-- A value that is not an array or an object: `null`, `true`, `false`, a
string or a number. -/
def scanScalar : Text → Option (JSON Text × Text)
  | [] => none
  | c :: r =>
    if c = '"' then
      match scanString r with
      | some (s, r1) => some (.string s, r1)
      | none => none
    else if c = 'n' then
      match r with
      | 'u' :: 'l' :: 'l' :: r1 => some (.null, r1)
      | _ => none
    else if c = 't' then
      match r with
      | 'r' :: 'u' :: 'e' :: r1 => some (.bool true, r1)
      | _ => none
    else if c = 'f' then
      match r with
      | 'a' :: 'l' :: 's' :: 'e' :: r1 => some (.bool false, r1)
      | _ => none
    else
      match scanNumber (c :: r) with
      | some (lit, r1) => some (.number lit, r1)
      | none => none

/-- The elements of a non-empty array, after its `[`: a value, then a comma
and the remaining elements or the closing bracket.  `scanV` scans one element;
one unit of fuel is spent per element. -/
def scanElems (scanV : Text → Option (JSON Text × Text)) :
    Nat → Text → Option (List (JSON Text) × Text)
  | 0, _ => none
  | fuel + 1, input =>
    match scanV (skipSpace input) with
    | none => none
    | some (v, rest) =>
      match skipSpace rest with
      | [] => none
      | c :: rest1 =>
        if c = ',' then
          match scanElems scanV fuel rest1 with
          | some (vs, r) => some (v :: vs, r)
          | none => none
        else if c = ']' then some ([v], rest1)
        else none

/-- The members of a non-empty object, after its `{`: a string key, a colon,
a value, then a comma and the remaining members or the closing brace. -/
def scanMembers (scanV : Text → Option (JSON Text × Text)) :
    Nat → Text → Option (Members Text × Text)
  | 0, _ => none
  | fuel + 1, input =>
    match skipSpace input with
    | [] => none
    | q :: r =>
      if q = '"' then
        match scanString r with
        | none => none
        | some (k, r1) =>
          match skipSpace r1 with
          | [] => none
          | c :: r2 =>
            if c = ':' then
              match scanV (skipSpace r2) with
              | none => none
              | some (v, r3) =>
                match skipSpace r3 with
                | [] => none
                | d :: r4 =>
                  if d = ',' then
                    match scanMembers scanV fuel r4 with
                    | some (ms, r5) => some ((k, v) :: ms, r5)
                    | none => none
                  else if d = '}' then some ([(k, v)], r4)
                  else none
            else none
      else none

/-- Scan one value at the head of the input (no leading white space): its tree
and what follows it.  The first argument is the number of arrays and objects
that may still be opened: the scanner fails with "exceeded max depth" beyond it. -/
def scanValue : Nat → Text → Option (JSON Text × Text)
  | 0, input => scanScalar input
  | depth + 1, input =>
    match input with
    | [] => none
    | c :: r =>
      if c = '[' then
        match skipSpace r with
        | [] => none
        | c1 :: r1 =>
          if c1 = ']' then some (.array [], r1)
          else
            match scanElems (fun t => scanValue depth t) (c1 :: r1).length (c1 :: r1) with
            | some (xs, r2) => some (.array xs, r2)
            | none => none
      else if c = '{' then
        match skipSpace r with
        | [] => none
        | c1 :: r1 =>
          if c1 = '}' then some (.object [], r1)
          else
            match scanMembers (fun t => scanValue depth t) (c1 :: r1).length (c1 :: r1) with
            | some (ms, r2) => some (.object ms, r2)
            | none => none
      else scanScalar (c :: r)

/-- The scanner's `maxNestingDepth`. -/
def maxNestingDepth : Nat := 10000

/-- The function `checkValid` of `json.Unmarshal`: the whole text is one JSON value
with optional white space around it. -/
def checkValid (data : Text) : Option (JSON Text) :=
  match scanValue maxNestingDepth (skipSpace data) with
  | some (j, rest) => if skipSpace rest = [] then some j else none
  | none => none

/-- The method `Decoder.readValue`: the first JSON value of the stream, after optional
white space.  What follows the value is left in the buffer, unread. -/
def readValue (data : Text) : Option (JSON Text) :=
  match scanValue maxNestingDepth (skipSpace data) with
  | some (j, _) => some j
  | none => none

/-- The function `json.Valid`: the text is well-formed JSON. -/
def Valid (data : Text) : Bool := (checkValid data).isSome

/-! ## Decoding: from the scanned tree to Go values -/

mutual
/-- The method `valueInterface` of the decoder: the Go value for a scanned value stored in
an `interface{}`.  A number literal is converted with `strconv.ParseFloat`; the
members of an object are assigned to a fresh map in source order, so that the
last of several equal keys wins. -/
def valueInterface {F : Type} (sc : Strconv F) : JSON Text → Option (JSON F)
  | .null => some .null
  | .bool b => some (.bool b)
  | .number lit =>
    match sc.parseFloat lit with
    | some f => some (.number f)
    | none => none
  | .string s => some (.string s)
  | .array xs =>
    match arrayInterface sc xs with
    | some ys => some (.array ys)
    | none => none
  | .object ms =>
    match objectInterface sc ms with
    | some kvs => some (.object (setKeys kvs []))
    | none => none
/-- The elements of an array, decoded in order. -/
def arrayInterface {F : Type} (sc : Strconv F) : List (JSON Text) → Option (List (JSON F))
  | [] => some []
  | x :: xs =>
    match valueInterface sc x, arrayInterface sc xs with
    | some y, some ys => some (y :: ys)
    | _, _ => none
/-- The members of an object, decoded in source order. -/
def objectInterface {F : Type} (sc : Strconv F) : Members Text → Option (Members F)
  | [] => some []
  | (k, x) :: ms =>
    match valueInterface sc x, objectInterface sc ms with
    | some y, some kvs => some ((k, y) :: kvs)
    | _, _ => none
end

/-- Decode a scanned value into a variable of type `map[string]interface{}`
holding `dst` (`none` is the nil map).  An object is assigned entry by entry
to the map already there, or to a new map when it is nil; `null` sets the
variable to nil; an array, string, number or boolean is an
`UnmarshalTypeError`. -/
def unmarshalMap {F : Type} (sc : Strconv F) (j : JSON Text) (dst : Option (Members F)) :
    Option (Option (Members F)) :=
  match j with
  | .null => some none
  | .object ms =>
    match objectInterface sc ms with
    | some kvs => some (some (setKeys kvs (dst.getD [])))
    | none => none
  | _ => none

/-- The call `json.Unmarshal(data, &dst)` for `dst` of type `map[string]interface{}`:
the new value of `dst`, or `none` for an error. -/
def Unmarshal {F : Type} (sc : Strconv F) (data : Text) (dst : Option (Members F)) :
    Option (Option (Members F)) :=
  match checkValid data with
  | some j => unmarshalMap sc j dst
  | none => none

/-- The call `json.NewDecoder(body).Decode(&dst)` for `dst` of type
`map[string]interface{}`: only the first value of the stream is read. -/
def Decode {F : Type} (sc : Strconv F) (body : Text) (dst : Option (Members F)) :
    Option (Option (Members F)) :=
  match readValue body with
  | some j => unmarshalMap sc j dst
  | none => none

/-! ## Encoding: json.Marshal -/

/-- The digits `hex` of the encoder. -/
def hexDigit (n : Nat) : Char := if n < 10 then Char.ofNat (48 + n) else Char.ofNat (87 + n)

/-- The table `htmlSafeSet` of the encoder, for an ASCII character. -/
def htmlSafe (c : Char) : Bool :=
  decide (0x20 ≤ c.toNat) && !(c = '"' || c = '\\' || c = '<' || c = '>' || c = '&')

/-- What `appendString` (with `escapeHTML`) writes for one character. -/
def escapeChar (c : Char) : Text :=
  if c.toNat < 0x80 then
    if htmlSafe c then [c]
    else if c = '\\' ∨ c = '"' then ['\\', c]
    else if c = Char.ofNat 8 then ['\\', 'b']
    else if c = Char.ofNat 12 then ['\\', 'f']
    else if c = '\n' then ['\\', 'n']
    else if c = '\r' then ['\\', 'r']
    else if c = '\t' then ['\\', 't']
    else ['\\', 'u', '0', '0', hexDigit (c.toNat / 16), hexDigit (c.toNat % 16)]
  else if c = Char.ofNat 0x2028 ∨ c = Char.ofNat 0x2029 then
    ['\\', 'u', '2', '0', '2', hexDigit (c.toNat % 16)]
  else [c]

/-- The body of a string literal: every character escaped. -/
def escape : Text → Text
  | [] => []
  | c :: cs => escapeChar c ++ escape cs

/-- A string literal as the encoder writes it. -/
def renderString (s : Text) : Text := '"' :: (escape s ++ ['"'])

mutual
/-- The compact text of a tree, as the encoder writes it: no white space, the
members of an object in the order of the list. -/
def render : JSON Text → Text
  | .null => ['n', 'u', 'l', 'l']
  | .bool true => ['t', 'r', 'u', 'e']
  | .bool false => ['f', 'a', 'l', 's', 'e']
  | .number lit => lit
  | .string s => renderString s
  | .array [] => ['[', ']']
  | .array (x :: xs) => '[' :: (render x ++ renderElems xs)
  | .object [] => ['{', '}']
  | .object ((k, x) :: ms) => '{' :: (renderString k ++ ':' :: (render x ++ renderMembers ms))
/-- The elements after the first, each behind a comma, and the closing bracket. -/
def renderElems : List (JSON Text) → Text
  | [] => [']']
  | x :: xs => ',' :: (render x ++ renderElems xs)
/-- The members after the first, each behind a comma, and the closing brace. -/
def renderMembers : Members Text → Text
  | [] => ['}']
  | (k, x) :: ms => ',' :: (renderString k ++ ':' :: (render x ++ renderMembers ms))
end

mutual
/-- The tree the encoder writes for a Go value: every `float64` replaced by
its text; `none` when one of them is NaN or ±Inf. -/
def formatNumbers {F : Type} (sc : Strconv F) : JSON F → Option (JSON Text)
  | .null => some .null
  | .bool b => some (.bool b)
  | .number f =>
    match sc.formatFloat f with
    | some lit => some (.number lit)
    | none => none
  | .string s => some (.string s)
  | .array xs =>
    match formatNumbersList sc xs with
    | some ys => some (.array ys)
    | none => none
  | .object ms =>
    match formatNumbersMembers sc ms with
    | some kvs => some (.object kvs)
    | none => none
/-- The elements of a slice, in order. -/
def formatNumbersList {F : Type} (sc : Strconv F) : List (JSON F) → Option (List (JSON Text))
  | [] => some []
  | x :: xs =>
    match formatNumbers sc x, formatNumbersList sc xs with
    | some y, some ys => some (y :: ys)
    | _, _ => none
/-- The entries of a map, in ascending key order. -/
def formatNumbersMembers {F : Type} (sc : Strconv F) : Members F → Option (Members Text)
  | [] => some []
  | (k, x) :: ms =>
    match formatNumbers sc x, formatNumbersMembers sc ms with
    | some y, some kvs => some ((k, y) :: kvs)
    | _, _ => none
end

/-- The call `json.Marshal(data)` for `data` of type `map[string]interface{}`: `null`
for the nil map, else the object with its keys in ascending order; `none` for an error. -/
def Marshal {F : Type} (sc : Strconv F) (data : Option (Members F)) : Option Text :=
  match data with
  | none => some ['n', 'u', 'l', 'l']
  | some m =>
    match formatNumbers sc (.object m) with
    | some j => some (render j)
    | none => none

/-! ## server.go: the record and its hooks -/

/-- The errors a handler reports. -/
inductive Error where
  /-- The call `json.Marshal` failed. -/
  | encoding
  /-- The call `json.Unmarshal` or `Decoder.Decode` failed. -/
  | decoding
  /-- The storage engine failed. -/
  | storage
  deriving DecidableEq

/-- The struct `RequestItem`. -/
structure RequestItem (F : Type) where
  /-- Column `id`, the primary key. -/
  ID : Nat
  /-- Column `path`. -/
  Path : String
  /-- The payload; not a column (`gorm:"-"`).  `none` is the nil map. -/
  Data : Option (Members F)
  /-- Column `raw_data`; not in the JSON of a response (`json:"-"`). -/
  RawData : Text

/-- The hook `BeforeSave`: set `RawData` to the JSON text of `Data`. -/
def BeforeSave {F : Type} (sc : Strconv F) (item : RequestItem F) : Except Error (RequestItem F) :=
  match Marshal sc item.Data with
  | none => .error .encoding
  | some rawData => .ok { item with RawData := rawData }

/-- The hook `AfterFind`: decode `RawData` into `Data`. -/
def AfterFind {F : Type} (sc : Strconv F) (item : RequestItem F) : Except Error (RequestItem F) :=
  match Unmarshal sc item.RawData item.Data with
  | none => .error .decoding
  | some data => .ok { item with Data := data }

/-! ## gorm over SQLite -/

/-- A row of the table `request_items`. -/
structure Row where
  /-- Column `id`. -/
  ID : Nat
  /-- Column `path`. -/
  Path : String
  /-- Column `raw_data`. -/
  RawData : Text
  deriving DecidableEq

/-- The database: the rows of `request_items` in rowid order, and the largest
id ever given out (the `sqlite_sequence` entry of an AUTOINCREMENT key). -/
structure DB where
  /-- The rows of the table. -/
  rows : List Row
  /-- The `sqlite_sequence` entry of the table. -/
  seq : Nat
  deriving DecidableEq

/-- The largest id among the rows, 0 for none. -/
def maxID : List Row → Nat
  | [] => 0
  | r :: rs => max r.ID (maxID rs)

/-- The id SQLite gives the next row of an AUTOINCREMENT key. -/
def nextID (db : DB) : Nat := max db.seq (maxID db.rows) + 1

/-- The call `db.Create(&item)` for an item with a zero `ID`: run `BeforeSave`, insert
the columns and set the new id on the item.  `dbFails` says whether the storage
engine fails on the INSERT.  Returns `Error` or the item, and the database. -/
def Create {F : Type} (sc : Strconv F) (db : DB) (dbFails : Bool) (item : RequestItem F) :
    Except Error (RequestItem F) × DB :=
  match BeforeSave sc item with
  | .error e => (.error e, db)
  | .ok saved =>
    if dbFails then (.error .storage, db)
    else
      (.ok { saved with ID := nextID db },
       { rows := db.rows ++ [{ ID := nextID db, Path := saved.Path, RawData := saved.RawData }],
         seq := nextID db })

/-- Run `AfterFind` on every scanned record: an error of any of them is the
error of the query. -/
def afterQuery {F : Type} (sc : Strconv F) : List (RequestItem F) → Except Error (List (RequestItem F))
  | [] => .ok []
  | item :: items =>
    match AfterFind sc item, afterQuery sc items with
    | .ok found, .ok founds => .ok (found :: founds)
    | .error e, _ => .error e
    | .ok _, .error e => .error e

/-- The record gorm scans from a row: the columns, and a nil `Data`. -/
def scanRow {F : Type} (r : Row) : RequestItem F :=
  { ID := r.ID, Path := r.Path, Data := none, RawData := r.RawData }

/-- The call `db.Where("path = ?", path).Find(&items)`: the rows whose path equals the
argument, in rowid order, each passed through `AfterFind`.  `dbFails` says
whether the storage engine fails on the SELECT. -/
def Find {F : Type} (sc : Strconv F) (db : DB) (dbFails : Bool) (path : String) :
    Except Error (List (RequestItem F)) :=
  if dbFails then .error .storage
  else afterQuery sc ((db.rows.filter (fun r => r.Path = path)).map scanRow)

/-! ## gin: binding and responses -/

/-- The call `c.ShouldBindJSON(&requestBody)` for a nil `requestBody` of type
`map[string]interface{}`: `Decoder.Decode` on the request body (the validator
has nothing to check on a map). -/
def ShouldBindJSON {F : Type} (sc : Strconv F) (body : Text) : Except Error (Option (Members F)) :=
  match Decode sc body none with
  | some requestBody => .ok requestBody
  | none => .error .decoding

/-- The object passed to `c.JSON`. -/
inductive Body (F : Type) where
  /-- The map `gin.H{"error": err.Error()}`. -/
  | error (e : Error) : Body F
  /-- One record. -/
  | item (r : RequestItem F) : Body F
  /-- A slice of records. -/
  | items (rs : List (RequestItem F)) : Body F

/-- What `c.JSON(status, obj)` sends. -/
structure Response (F : Type) where
  /-- The HTTP status code. -/
  status : Nat
  /-- The object serialised as the body. -/
  body : Body F

/-- The constant `http.StatusOK`. -/
def StatusOK : Nat := 200
/-- The constant `http.StatusBadRequest`. -/
def StatusBadRequest : Nat := 400
/-- The constant `http.StatusInternalServerError`. -/
def StatusInternalServerError : Nat := 500
/-- The constant `http.MethodPost`. -/
def MethodPost : String := "POST"
/-- The constant `http.MethodGet`. -/
def MethodGet : String := "GET"

/-! ## server.go: the handlers -/

/-- The function literal passed to `router.POST`, with the value `path` of the
variable it captured: the response and the database after the request. -/
def createHandler {F : Type} (sc : Strconv F) (path : String) (db : DB) (dbFails : Bool)
    (body : Text) : Response F × DB :=
  match ShouldBindJSON sc body with
  | .error e => ({ status := StatusBadRequest, body := .error e }, db)
  | .ok requestBody =>
    match Create sc db dbFails { ID := 0, Path := path, Data := requestBody, RawData := [] } with
    | (.error e, db1) => ({ status := StatusInternalServerError, body := .error e }, db1)
    | (.ok item, db1) => ({ status := StatusOK, body := .item item }, db1)

/-- The function literal passed to `router.GET`, with the value `path` of the
variable it captured: the response and the database after the request. -/
def listHandler {F : Type} (sc : Strconv F) (path : String) (db : DB) (dbFails : Bool) :
    Response F × DB :=
  match Find sc db dbFails path with
  | .error e => ({ status := StatusInternalServerError, body := .error e }, db)
  | .ok items => ({ status := StatusOK, body := .items items }, db)

/-! ## server.go: the registration loop -/

/-- How a `for ... range` loop declares its variables: a new `path` for every
iteration (the Go language since version 1.22), or one `path` for the whole
loop, assigned anew by every iteration (before 1.22). -/
inductive LoopVar where
  | perIteration
  | perLoop
  deriving DecidableEq

/-- A function literal of the loop body: which of the two it is, and the
instance of the variable `path` it refers to (closures capture variables, not
values). -/
inductive Closure where
  | create (pathVar : Nat)
  | list (pathVar : Nat)
  deriving DecidableEq

/-- One call `router.POST(path, handler)` or `router.GET(path, handler)`. -/
structure Route where
  /-- The HTTP method the handler is registered for. -/
  method : String
  /-- The value of `path` at the time of the call. -/
  path : String
  /-- The handler. -/
  handler : Closure
  deriving DecidableEq

/-- The state the loop builds: the registrations made so far, in order, and
the instances of the variable `path` with their current values. -/
structure Router where
  /-- The registrations. -/
  routes : List Route
  /-- The instances of `path`. -/
  vars : List String
  deriving DecidableEq

/-- The body of the inner loop: the `switch method`. -/
def registerMethod (path : String) (pathVar : Nat) (router : Router) (method : String) : Router :=
  if method = MethodPost then
    { router with routes := router.routes ++ [{ method := MethodPost, path := path, handler := .create pathVar }] }
  else if method = MethodGet then
    { router with routes := router.routes ++ [{ method := MethodGet, path := path, handler := .list pathVar }] }
  else router

/-- One iteration of the outer loop: bind `path`, then range over the
operations of the path item.  An entry is a path with
`pathItem.Operations()`, a map from method to operation descriptor, in the
order the iteration visits it; `Op` is the type of the descriptors. -/
def registerPath {Op : Type} (sem : LoopVar) (router : Router)
    (entry : String × List (String × Op)) : Router :=
  match sem with
  | .perIteration =>
    entry.2.foldl (fun r op => registerMethod entry.1 router.vars.length r op.1)
      { router with vars := router.vars ++ [entry.1] }
  | .perLoop =>
    entry.2.foldl (fun r op => registerMethod entry.1 0 r op.1)
      { router with vars := [entry.1] }

/-- The loop `for path, pathItem := range doc.Paths.Map()` of `main`, over the
entries of the map in the order the iteration visits them. -/
def registerRoutes {Op : Type} (sem : LoopVar) (doc : List (String × List (String × Op))) : Router :=
  doc.foldl (registerPath sem) { routes := [], vars := [] }

/-- The value of the variable `path` a closure reads when it runs, after the
loop has ended. -/
def capturedPath (router : Router) : Closure → String
  | .create pathVar => router.vars.getD pathVar ""
  | .list pathVar => router.vars.getD pathVar ""

/-- Run a registered handler on a request. -/
def runHandler {F : Type} (sc : Strconv F) (router : Router) (h : Closure) (db : DB)
    (dbFails : Bool) (body : Text) : Response F × DB :=
  match h with
  | .create _ => createHandler sc (capturedPath router h) db dbFails body
  | .list _ => listHandler sc (capturedPath router h) db dbFails

/-- The registrations one iteration of the outer loop makes, for the instance
`pathVar` of the variable `path`. -/
def routesOf {Op : Type} (pathVar : Nat) (entry : String × List (String × Op)) : List Route :=
  entry.2.filterMap (fun op =>
    if op.1 = MethodPost then
      some { method := MethodPost, path := entry.1, handler := .create pathVar }
    else if op.1 = MethodGet then
      some { method := MethodGet, path := entry.1, handler := .list pathVar }
    else none)

/-! ## Sequences of requests -/

/-- A request handled by the server: a POST handled by the create handler
bound to a path, or a GET handled by the list handler bound to a path, each
with the outcome of the storage engine. -/
inductive Request where
  | post (path : String) (body : Text) (dbFails : Bool)
  | get (path : String) (dbFails : Bool)

/-- The database after one request. -/
def serve {F : Type} (sc : Strconv F) (db : DB) : Request → DB
  | .post path body dbFails => (createHandler sc path db dbFails body).2
  | .get path dbFails => (listHandler sc path db dbFails).2

/-- The database after a sequence of requests. -/
def serveAll {F : Type} (sc : Strconv F) (db : DB) (requests : List Request) : DB :=
  requests.foldl (serve sc) db

/-! ## The route table, as the specification describes it -/

/-- The registrations the specification asks for: `(POST, p)` for each path
`p` that declares POST and `(GET, p)` for each path that declares GET, and
nothing for any other method. -/
def declaredRoutes {Op : Type} (doc : List (String × List (String × Op))) : List (String × String) :=
  doc.flatMap (fun entry =>
    (entry.2.filter (fun op => op.1 = MethodPost ∨ op.1 = MethodGet)).map
      (fun op => (op.1, entry.1)))

/-- The contract with every operation descriptor erased. -/
def eraseOperations {Op : Type} (doc : List (String × List (String × Op))) :
    List (String × List (String × Unit)) :=
  doc.map (fun entry => (entry.1, entry.2.map (fun op => (op.1, ()))))

/-! ## Predicates of the statements -/

/-- The contract of `strconv` that `encoding/json` relies on: the text written
for a `float64` is a JSON number literal, and parsing it gives the value back. -/
def Strconv.RoundTrips {F : Type} (sc : Strconv F) : Prop :=
  ∀ f lit, sc.formatFloat f = some lit → numberLiteral lit = true ∧ sc.parseFloat lit = some f

/-- The keys of the entries are pairwise ascending. -/
def Sorted {α : Type} (m : List (Text × α)) : Prop :=
  m.Pairwise (fun a b => keyLess a.1 b.1 = true)

/-- A payload a handler can hold: the nil map, or a map that is a Go value
nested no deeper than the scanner allows. -/
def Representable {F : Type} (data : Option (Members F)) : Prop :=
  match data with
  | none => True
  | some m => (JSON.object m).isValue = true ∧ (JSON.object m).depth ≤ maxNestingDepth

/-- The value is `null` or an object: what a `map[string]interface{}` can be
decoded from. -/
def JSON.isMapOrNull {N : Type} : JSON N → Bool
  | .null => true
  | .object _ => true
  | _ => false

/-! ## Predicates of the proofs -/

/-- The text cannot continue a number literal: it is empty or starts with a
character that is not a digit, a point or an exponent mark. -/
def endsNumber : Text → Bool
  | [] => true
  | c :: _ => !(isDigit c || c = '.' || c = 'e' || c = 'E')

mutual
/-- Every number of the tree is a number literal. -/
def JSON.numbersOK : JSON Text → Bool
  | .number lit => numberLiteral lit
  | .array xs => JSON.numbersOKList xs
  | .object ms => JSON.numbersOKMembers ms
  | _ => true
/-- Every number of the elements is a number literal. -/
def JSON.numbersOKList : List (JSON Text) → Bool
  | [] => true
  | x :: xs => JSON.numbersOK x && JSON.numbersOKList xs
/-- Every number of the members is a number literal. -/
def JSON.numbersOKMembers : Members Text → Bool
  | [] => true
  | (_, x) :: ms => JSON.numbersOK x && JSON.numbersOKMembers ms
end

/-- The first character of an encoded value: not white space, and not a
closing bracket or brace. -/
def startsValue (c : Char) : Prop := isSpace c = false ∧ c ≠ ']' ∧ c ≠ '}'

/-- What may follow a value for it to be scanned alone: nothing, or a comma,
or a closing bracket or brace. -/
def follows : Text → Prop
  | [] => True
  | c :: _ => c = ',' ∨ c = ']' ∨ c = '}'

/-! ## Sample data -/

/-- The text of a one-digit number. -/
def digitText (d : Fin 10) : Text := [Char.ofNat (48 + d.val)]

/-- The conversions of `strconv` restricted to the `float64` values 0, 1, ..., 9,
which Go writes and reads as one digit.  Other literals are refused. -/
def digitConv : Strconv (Fin 10) where
  formatFloat := fun d => some (digitText d)
  parseFloat := fun t =>
    match t with
    | [c] => if h : isDigit c = true then some ⟨(c.toNat - 48) % 10, Nat.mod_lt _ (by decide)⟩ else none
    | _ => none

/-- The path of the example contract. -/
def widgets : String := "/widgets"

/-- The path of a second route. -/
def gadgets : String := "/gadgets"

/-- The request body `{"name":"bolt"}`. -/
def boltBody : Text := "\x7b\"name\":\"bolt\"\x7d".toList

/-- The payload decoded from `boltBody`. -/
def boltData : Option (Members (Fin 10)) := some [("name".toList, .string "bolt".toList)]

/-- The empty database. -/
def emptyDB : DB := { rows := [], seq := 0 }

/-- The record created from `boltBody` on the empty database. -/
def boltItem : RequestItem (Fin 10) :=
  { ID := 1, Path := widgets, Data := boltData, RawData := boltBody }

/-- The database after that request. -/
def boltDB : DB := { rows := [{ ID := 1, Path := widgets, RawData := boltBody }], seq := 1 }

/-- A database whose only row holds the text `{`, which is not JSON. -/
def corruptDB : DB := { rows := [{ ID := 1, Path := widgets, RawData := ['{'] }], seq := 1 }

/-- The request body `["bolt"]`. -/
def arrayBody : Text := "[\"bolt\"]".toList

/-- The start of an object nested deeper than the scanner allows: `{"a":`
and then `maxNestingDepth` opening brackets.  Closing the brackets and the
brace after it gives a JSON text of nesting depth `maxNestingDepth + 1`. -/
def deepBody : Text := ['{', '"', 'a', '"', ':'] ++ List.replicate maxNestingDepth '['

/-- The request body `{}x`. -/
def trailingBody : Text := "\x7b\x7dx".toList

/-- A contract with two paths: `/widgets` declares GET and POST, `/gadgets`
declares POST and DELETE. -/
def sampleDoc : List (String × List (String × Unit)) :=
  [(widgets, [("GET", ()), ("POST", ())]), (gadgets, [("POST", ()), ("DELETE", ())])]

/-! ## Maps: the order of keys -/

theorem keyLess_irrefl (a : Text) : keyLess a a = false := by
  induction a with
  | nil => rfl
  | cons c cs ih => simp [keyLess, ih]

theorem keyLess_trans : ∀ (a b c : Text), keyLess a b = true → keyLess b c = true →
    keyLess a c = true
  | [], [], _, h, _ => by simp [keyLess] at h
  | [], _ :: _, [], _, h => by simp [keyLess] at h
  | [], _ :: _, _ :: _, _, _ => by simp [keyLess]
  | _ :: _, [], _, h, _ => by simp [keyLess] at h
  | _ :: _, _ :: _, [], _, h => by simp [keyLess] at h
  | x :: xs, y :: ys, z :: zs, h1, h2 => by
    simp only [keyLess] at h1 h2 ⊢
    by_cases hxy : x < y
    · by_cases hyz : y < z
      · simp [lt_trans hxy hyz]
      · simp only [hyz, if_false] at h2
        by_cases hyz2 : y = z
        · subst hyz2; simp [hxy]
        · simp [hyz2] at h2
    · simp only [hxy, if_false] at h1
      by_cases hxy2 : x = y
      · subst hxy2
        simp only [if_true] at h1
        by_cases hxz : x < z
        · simp [hxz]
        · simp only [hxz, if_false] at h2 ⊢
          by_cases hxz2 : x = z
          · simp only [hxz2, if_true] at h2 ⊢
            exact keyLess_trans xs ys zs h1 h2
          · simp [hxz2] at h2
      · simp [hxy2] at h1

theorem keyLess_asymm (a b : Text) (h : keyLess a b = true) : keyLess b a = false := by
  cases hb : keyLess b a with
  | false => rfl
  | true =>
    have := keyLess_trans a b a h hb
    rw [keyLess_irrefl] at this
    exact Bool.noConfusion this

theorem keyLess_ne (a b : Text) (h : keyLess a b = true) : a ≠ b := by
  intro hab
  subst hab
  rw [keyLess_irrefl] at h
  exact Bool.noConfusion h

theorem ascending_pairwise : ∀ (ks : List Text), ascending ks = true →
    ks.Pairwise (fun a b => keyLess a b = true)
  | [], _ => List.Pairwise.nil
  | [_], _ => List.pairwise_singleton _ _
  | k1 :: k2 :: ks, h => by
    simp only [ascending, Bool.and_eq_true] at h
    have ih := ascending_pairwise (k2 :: ks) h.2
    refine List.Pairwise.cons ?_ ih
    intro k hk
    rcases List.mem_cons.1 hk with hk | hk
    · subst hk; exact h.1
    · exact keyLess_trans k1 k2 k h.1 (List.rel_of_pairwise_cons ih hk)

theorem sorted_of_ascending {α : Type} (m : List (Text × α))
    (h : ascending (m.map Prod.fst) = true) : Sorted m := by
  have := ascending_pairwise _ h
  exact (List.pairwise_map.1 this)

theorem setKey_append {α : Type} (k : Text) (v : α) :
    ∀ (m : List (Text × α)), (∀ a ∈ m, keyLess a.1 k = true) → setKey k v m = m ++ [(k, v)]
  | [], _ => rfl
  | (k1, v1) :: m, h => by
    have h1 : keyLess k1 k = true := h (k1, v1) (List.mem_cons_self _ _)
    have h2 : keyLess k k1 = false := keyLess_asymm k1 k h1
    have h3 : k ≠ k1 := fun e => keyLess_ne k1 k h1 e.symm
    have ih := setKey_append k v m (fun a ha => h a (List.mem_cons_of_mem _ ha))
    simp [setKey, h2, h3, ih]

theorem setKeys_append {α : Type} : ∀ (kvs m : List (Text × α)), Sorted (m ++ kvs) →
    setKeys kvs m = m ++ kvs
  | [], m, _ => by simp [setKeys]
  | (k, v) :: kvs, m, h => by
    have hm : ∀ a ∈ m, keyLess a.1 k = true := by
      intro a ha
      exact (List.pairwise_append.1 h).2.2 a ha (k, v) (List.mem_cons_self _ _)
    have h' : Sorted ((m ++ [(k, v)]) ++ kvs) := by
      simpa [Sorted] using h
    have ih := setKeys_append kvs (m ++ [(k, v)]) h'
    simp only [setKeys, List.foldl_cons] at ih ⊢
    rw [setKey_append k v m hm, ih]
    simp

theorem setKeys_sorted {α : Type} (kvs : List (Text × α)) (h : Sorted kvs) :
    setKeys kvs [] = kvs := by
  have := setKeys_append kvs [] (by simpa using h)
  simpa using this

theorem setKey_mem {α : Type} (k : Text) (v : α) :
    ∀ (m : List (Text × α)), Sorted m → (k, v) ∈ m → setKey k v m = m
  | [], _, h => by simp at h
  | (k1, v1) :: m, hs, h => by
    have hs1 : ∀ a ∈ m, keyLess k1 a.1 = true := fun a ha => List.rel_of_pairwise_cons hs ha
    rcases List.mem_cons.1 h with h | h
    · cases h
      simp [setKey, keyLess_irrefl]
    · have h1 : keyLess k1 k = true := hs1 (k, v) h
      have h2 : keyLess k k1 = false := keyLess_asymm k1 k h1
      have h3 : k ≠ k1 := fun e => keyLess_ne k1 k h1 e.symm
      have ih := setKey_mem k v m (List.Pairwise.of_cons hs) h
      simp [setKey, h2, h3, ih]

theorem setKeys_self_aux {α : Type} : ∀ (kvs m : List (Text × α)), Sorted m →
    (∀ a ∈ kvs, a ∈ m) → setKeys kvs m = m
  | [], _, _, _ => by simp [setKeys]
  | (k, v) :: kvs, m, hs, h => by
    have ih := setKeys_self_aux kvs m hs (fun a ha => h a (List.mem_cons_of_mem _ ha))
    simp only [setKeys, List.foldl_cons] at ih ⊢
    rw [setKey_mem k v m hs (h (k, v) (List.mem_cons_self _ _)), ih]

theorem setKeys_self {α : Type} (m : List (Text × α)) (h : Sorted m) : setKeys m m = m :=
  setKeys_self_aux m m h (fun _ ha => ha)

/-! ## The scanner on the encoder's output -/

theorem digits_append (rest : Text) (h : endsNumber rest = true) :
    ∀ (t : Text), digits (t ++ rest) = ((digits t).1, (digits t).2 ++ rest)
  | [] => by
    cases rest with
    | nil => rfl
    | cons c tl =>
      simp only [endsNumber, Bool.not_eq_true', Bool.or_eq_false_iff] at h
      simp [digits, h.1.1.1]
  | c :: cs => by
    by_cases hc : isDigit c = true
    · simp [digits, hc, digits_append rest h cs]
    · simp [digits, hc]

theorem scanExp_append (lit t l r rest : Text) (h : scanExp lit t = some (l, r))
    (hr : endsNumber rest = true) : scanExp lit (t ++ rest) = some (l, r ++ rest) := by
  cases t with
  | nil =>
    simp only [scanExp, Option.some.injEq, Prod.mk.injEq] at h
    obtain ⟨rfl, rfl⟩ := h
    cases rest with
    | nil => rfl
    | cons c tl =>
      simp only [endsNumber, Bool.not_eq_true', Bool.or_eq_false_iff, decide_eq_false_iff_not] at hr
      simp [scanExp, hr.1.2, hr.2]
  | cons c r0 =>
    simp only [scanExp, List.cons_append] at h ⊢
    by_cases hc : c = 'e' ∨ c = 'E'
    · simp only [hc, if_true] at h ⊢
      cases r0 with
      | nil => simp at h
      | cons s r1 =>
        simp only [List.cons_append] at h ⊢
        by_cases hs : s = '+' ∨ s = '-'
        · simp only [hs, if_true] at h ⊢
          rw [digits_append rest hr r1]
          rcases hd : digits r1 with ⟨ds, r2⟩
          rw [hd] at h
          cases ds with
          | nil => simp at h
          | cons d ds =>
            simp only [Option.some.injEq, Prod.mk.injEq] at h
            obtain ⟨rfl, rfl⟩ := h
            rfl
        · simp only [hs, if_false] at h ⊢
          have := digits_append rest hr (s :: r1)
          simp only [List.cons_append] at this
          rw [this]
          rcases hd : digits (s :: r1) with ⟨ds, r2⟩
          rw [hd] at h
          cases ds with
          | nil => simp at h
          | cons d ds =>
            simp only [Option.some.injEq, Prod.mk.injEq] at h
            obtain ⟨rfl, rfl⟩ := h
            rfl
    · simp only [hc, if_false, Option.some.injEq, Prod.mk.injEq] at h ⊢
      obtain ⟨rfl, rfl⟩ := h
      simp

theorem scanFrac_append (lit t l r rest : Text) (h : scanFrac lit t = some (l, r))
    (hr : endsNumber rest = true) : scanFrac lit (t ++ rest) = some (l, r ++ rest) := by
  cases t with
  | nil =>
    simp only [scanFrac, Option.some.injEq, Prod.mk.injEq] at h
    obtain ⟨rfl, rfl⟩ := h
    cases rest with
    | nil => rfl
    | cons c tl =>
      have hc : c ≠ '.' := by
        simp only [endsNumber, Bool.not_eq_true', Bool.or_eq_false_iff, decide_eq_false_iff_not] at hr
        exact hr.1.1.2
      simp only [List.nil_append, scanFrac, hc, if_false]
      exact scanExp_append _ [] _ [] (c :: tl) rfl hr
  | cons c r0 =>
    simp only [scanFrac, List.cons_append] at h ⊢
    by_cases hc : c = '.'
    · simp only [hc, if_true] at h ⊢
      rw [digits_append rest hr r0]
      rcases hd : digits r0 with ⟨ds, r2⟩
      rw [hd] at h
      cases ds with
      | nil => simp at h
      | cons d ds => exact scanExp_append _ _ _ _ _ h hr
    · simp only [hc, if_false] at h ⊢
      exact scanExp_append _ _ _ _ _ h hr

theorem scanInt_append (lit t l r rest : Text) (h : scanInt lit t = some (l, r))
    (hr : endsNumber rest = true) : scanInt lit (t ++ rest) = some (l, r ++ rest) := by
  cases t with
  | nil => simp [scanInt] at h
  | cons c r0 =>
    simp only [scanInt, List.cons_append] at h ⊢
    by_cases hc : c = '0'
    · simp only [hc, if_true] at h ⊢
      exact scanFrac_append _ _ _ _ _ h hr
    · simp only [hc, if_false] at h ⊢
      by_cases hd : isDigit c = true
      · simp only [hd, if_true] at h ⊢
        rw [digits_append rest hr r0]
        exact scanFrac_append _ _ _ _ _ h hr
      · simp [hd] at h

theorem scanNumber_append (t l r rest : Text) (h : scanNumber t = some (l, r))
    (hr : endsNumber rest = true) : scanNumber (t ++ rest) = some (l, r ++ rest) := by
  cases t with
  | nil => simp [scanNumber] at h
  | cons c r0 =>
    simp only [scanNumber, List.cons_append] at h ⊢
    by_cases hc : c = '-'
    · simp only [hc, if_true] at h ⊢
      exact scanInt_append _ _ _ _ _ h hr
    · simp only [hc, if_false] at h ⊢
      exact scanInt_append _ (c :: r0) _ _ _ h hr

/-- A number literal followed by text that cannot continue it is scanned whole. -/
theorem scanNumber_literal (lit rest : Text) (h : numberLiteral lit = true)
    (hr : endsNumber rest = true) : scanNumber (lit ++ rest) = some (lit, rest) := by
  have h1 : scanNumber lit = some (lit, []) := by
    simpa [numberLiteral] using h
  simpa using scanNumber_append lit lit [] rest h1 hr

theorem numberLiteral_head (lit : Text) (h : numberLiteral lit = true) :
    ∃ c tl, lit = c :: tl ∧ (c = '-' ∨ isDigit c = true) := by
  have h1 : scanNumber lit = some (lit, []) := by
    simpa [numberLiteral] using h
  cases lit with
  | nil => simp [scanNumber] at h1
  | cons c tl =>
    refine ⟨c, tl, rfl, ?_⟩
    by_cases hc : c = '-'
    · exact Or.inl hc
    · right
      simp only [scanNumber, hc, if_false, scanInt] at h1
      by_cases h0 : c = '0'
      · subst h0; decide
      · simp only [h0, if_false] at h1
        by_cases hd : isDigit c = true
        · exact hd
        · simp [hd] at h1

theorem scanStringFrom_skip (tl : Text) : ∀ (xs : Text),
    scanStringFrom xs.length (xs ++ tl) = scanStringFrom 0 tl
  | [] => rfl
  | _ :: xs => by
    simp only [List.length_cons, List.cons_append, scanStringFrom]
    exact scanStringFrom_skip tl xs

/-- One step of the loop of `unquote`: an item of the body and the rest. -/
theorem scanString_step (c ch : Char) (item tl : Text) (hq : c ≠ '"')
    (h : unquoteStep (c :: item ++ tl) = some (ch, item.length + 1)) :
    scanString (c :: item ++ tl) = prepend ch (scanString tl) := by
  simp only [scanString, List.cons_append, scanStringFrom, hq, if_false, List.append_eq]
  simp only [List.cons_append] at h
  rw [h]
  simp only [Nat.add_sub_cancel]
  rw [scanStringFrom_skip]

theorem scanString_plain (c : Char) (tl : Text) (h1 : c ≠ '"') (h2 : c ≠ '\\')
    (h3 : ¬ c.toNat < 0x20) : scanString (c :: tl) = prepend c (scanString tl) := by
  refine scanString_step c c [] tl h1 ?_
  simp [unquoteStep, h2, h3]

theorem scanString_short (e ch : Char) (tl : Text) (h : e ≠ 'u') (hu : unescape e = some ch) :
    scanString ('\\' :: e :: tl) = prepend ch (scanString tl) := by
  refine scanString_step '\\' ch [e] tl (by decide) ?_
  simp [unquoteStep, h, hu]

theorem scanString_u (h1 h2 h3 h4 : Char) (tl : Text) (rr : Nat)
    (h : hex4 h1 h2 h3 h4 = some rr) (hs : isSurrogate rr = false) :
    scanString ('\\' :: 'u' :: h1 :: h2 :: h3 :: h4 :: tl) = prepend (Char.ofNat rr) (scanString tl) := by
  refine scanString_step '\\' _ ['u', h1, h2, h3, h4] tl (by decide) ?_
  simp [unquoteStep, h, hs]

theorem hex4_hexDigit : ∀ n, n < 128 →
    hex4 '0' '0' (hexDigit (n / 16)) (hexDigit (n % 16)) = some n := by
  decide

theorem isSurrogate_small (n : Nat) (h : n < 128) : isSurrogate n = false := by
  simp only [isSurrogate, Bool.and_eq_false_iff, decide_eq_false_iff_not]
  left
  omega

/-- Scanning undoes the escaping of one character. -/
theorem scanString_escapeChar (c : Char) (tl : Text) :
    scanString (escapeChar c ++ tl) = prepend c (scanString tl) := by
  unfold escapeChar
  by_cases hlt : c.toNat < 0x80
  · simp only [hlt, if_true]
    by_cases hs : htmlSafe c = true
    · simp only [hs, if_true, List.singleton_append]
      simp only [htmlSafe, Bool.and_eq_true, decide_eq_true_eq, Bool.not_eq_true',
        Bool.or_eq_false_iff, decide_eq_false_iff_not] at hs
      exact scanString_plain c tl hs.2.1.1.1.1 hs.2.1.1.1.2 (by omega)
    · simp only [hs, if_false]
      by_cases h1 : c = '\\' ∨ c = '"'
      · simp only [h1, if_true]
        rcases h1 with h1 | h1 <;> subst h1 <;> exact scanString_short _ _ tl (by decide) (by decide)
      · simp only [h1, if_false]
        by_cases h2 : c = Char.ofNat 8
        · subst h2; exact scanString_short _ _ tl (by decide) (by decide)
        · simp only [h2, if_false]
          by_cases h3 : c = Char.ofNat 12
          · subst h3; exact scanString_short _ _ tl (by decide) (by decide)
          · simp only [h3, if_false]
            by_cases h4 : c = '\n'
            · subst h4; exact scanString_short _ _ tl (by decide) (by decide)
            · simp only [h4, if_false]
              by_cases h5 : c = '\r'
              · subst h5; exact scanString_short _ _ tl (by decide) (by decide)
              · simp only [h5, if_false]
                by_cases h6 : c = '\t'
                · subst h6; exact scanString_short _ _ tl (by decide) (by decide)
                · simp only [h6, if_false]
                  have := scanString_u '0' '0' (hexDigit (c.toNat / 16)) (hexDigit (c.toNat % 16)) tl
                    c.toNat (hex4_hexDigit c.toNat hlt) (isSurrogate_small c.toNat hlt)
                  rw [Char.ofNat_toNat] at this
                  exact this
  · simp only [hlt, if_false]
    by_cases h1 : c = Char.ofNat 0x2028 ∨ c = Char.ofNat 0x2029
    · simp only [h1, if_true]
      rcases h1 with h1 | h1 <;> subst h1 <;>
        exact scanString_u _ _ _ _ tl _ (by decide) (by decide)
    · simp only [h1, if_false, List.singleton_append]
      refine scanString_plain c tl ?_ ?_ (by omega)
      · intro h; subst h; exact hlt (by decide)
      · intro h; subst h; exact hlt (by decide)

/-- Scanning a string literal written by the encoder gives back the string. -/
theorem scanString_escape (rest : Text) : ∀ (s : Text),
    scanString (escape s ++ '"' :: rest) = some (s, rest)
  | [] => by
    simp [escape, scanString, scanStringFrom]
  | c :: cs => by
    rw [escape, List.append_assoc, scanString_escapeChar, scanString_escape rest cs]
    rfl

theorem scanString_renderString (s rest : Text) :
    scanString (escape s ++ ['"'] ++ rest) = some (s, rest) := by
  simpa using scanString_escape rest s

/-! ## Scanning what the encoder wrote -/

theorem skipSpace_cons (c : Char) (r : Text) (h : isSpace c = false) :
    skipSpace (c :: r) = c :: r := by
  simp [skipSpace, h]

theorem depth_le_depthList {N : Type} : ∀ (xs : List (JSON N)) (x : JSON N), x ∈ xs →
    x.depth ≤ JSON.depthList xs
  | [], _, h => by simp at h
  | y :: ys, x, h => by
    simp only [JSON.depthList]
    rcases List.mem_cons.1 h with h | h
    · subst h; exact le_max_left _ _
    · exact le_trans (depth_le_depthList ys x h) (le_max_right _ _)

theorem depth_le_depthMembers {N : Type} : ∀ (ms : Members N) (kv : Text × JSON N), kv ∈ ms →
    kv.2.depth ≤ JSON.depthMembers ms
  | [], _, h => by simp at h
  | (k, y) :: ms, kv, h => by
    simp only [JSON.depthMembers]
    rcases List.mem_cons.1 h with h | h
    · subst h; exact le_max_left _ _
    · exact le_trans (depth_le_depthMembers ms kv h) (le_max_right _ _)

theorem numbersOK_of_mem : ∀ (xs : List (JSON Text)) (x : JSON Text),
    JSON.numbersOKList xs = true → x ∈ xs → x.numbersOK = true
  | [], _, _, h => by simp at h
  | y :: ys, x, hok, h => by
    simp only [JSON.numbersOKList, Bool.and_eq_true] at hok
    rcases List.mem_cons.1 h with h | h
    · subst h; exact hok.1
    · exact numbersOK_of_mem ys x hok.2 h

theorem numbersOK_of_mem_members : ∀ (ms : Members Text) (kv : Text × JSON Text),
    JSON.numbersOKMembers ms = true → kv ∈ ms → kv.2.numbersOK = true
  | [], _, _, h => by simp at h
  | (k, y) :: ms, kv, hok, h => by
    simp only [JSON.numbersOKMembers, Bool.and_eq_true] at hok
    rcases List.mem_cons.1 h with h | h
    · subst h; exact hok.1
    · exact numbersOK_of_mem_members ms kv hok.2 h

theorem isDigit_startsValue (c : Char) (h : c = '-' ∨ isDigit c = true) : startsValue c := by
  rcases h with h | h
  · subst h; exact ⟨by decide, by decide, by decide⟩
  · simp only [isDigit, Bool.and_eq_true, decide_eq_true_eq] at h
    refine ⟨?_, ?_, ?_⟩
    · simp only [isSpace, Bool.or_eq_false_iff, decide_eq_false_iff_not]
      refine ⟨⟨⟨?_, ?_⟩, ?_⟩, ?_⟩ <;> intro e <;> subst e <;> exact absurd h.1 (by decide)
    · intro e; subst e; exact absurd h.2 (by decide)
    · intro e; subst e; exact absurd h.2 (by decide)

theorem render_head : ∀ (j : JSON Text), j.numbersOK = true →
    ∃ c tl, render j = c :: tl ∧ startsValue c
  | .null, _ => ⟨'n', _, rfl, by decide, by decide, by decide⟩
  | .bool true, _ => ⟨'t', _, rfl, by decide, by decide, by decide⟩
  | .bool false, _ => ⟨'f', _, rfl, by decide, by decide, by decide⟩
  | .number lit, h => by
    obtain ⟨c, tl, e, hc⟩ := numberLiteral_head lit (by simpa [JSON.numbersOK] using h)
    exact ⟨c, tl, by simp [render, e], isDigit_startsValue c hc⟩
  | .string s, _ => ⟨'"', _, rfl, by decide, by decide, by decide⟩
  | .array [], _ => ⟨'[', _, rfl, by decide, by decide, by decide⟩
  | .array (_ :: _), _ => ⟨'[', _, by rw [render], by decide, by decide, by decide⟩
  | .object [], _ => ⟨'{', _, rfl, by decide, by decide, by decide⟩
  | .object ((_, _) :: _), _ => ⟨'{', _, by rw [render], by decide, by decide, by decide⟩

theorem renderElems_head (xs : List (JSON Text)) (rest : Text) :
    ∃ c tl, renderElems xs ++ rest = c :: tl ∧ (c = ',' ∨ c = ']') := by
  cases xs with
  | nil => exact ⟨']', rest, rfl, Or.inr rfl⟩
  | cons x xs => exact ⟨',', _, by rw [renderElems, List.cons_append], Or.inl rfl⟩

theorem renderMembers_head (ms : Members Text) (rest : Text) :
    ∃ c tl, renderMembers ms ++ rest = c :: tl ∧ (c = ',' ∨ c = '}') := by
  cases ms with
  | nil => exact ⟨'}', rest, rfl, Or.inr rfl⟩
  | cons m ms =>
    obtain ⟨k, x⟩ := m
    exact ⟨',', _, by rw [renderMembers, List.cons_append], Or.inl rfl⟩

theorem renderElems_length : ∀ (xs : List (JSON Text)), xs.length < (renderElems xs).length
  | [] => by simp [renderElems]
  | x :: xs => by
    have := renderElems_length xs
    simp only [renderElems, List.length_cons, List.length_append]
    omega

theorem renderMembers_length : ∀ (ms : Members Text), ms.length < (renderMembers ms).length
  | [] => by simp [renderMembers]
  | (k, x) :: ms => by
    have := renderMembers_length ms
    simp only [renderMembers, List.length_cons, List.length_append]
    omega

theorem endsNumber_of_head (c : Char) (tl : Text)
    (h : c = ',' ∨ c = ']' ∨ c = '}') : endsNumber (c :: tl) = true := by
  rcases h with h | h | h <;> subst h <;> simp only [endsNumber] <;> decide

theorem endsNumber_of_follows (rest : Text) (h : follows rest) : endsNumber rest = true := by
  cases rest with
  | nil => rfl
  | cons c tl => exact endsNumber_of_head c tl h

theorem follows_renderElems (xs : List (JSON Text)) (rest : Text) :
    follows (renderElems xs ++ rest) := by
  obtain ⟨c, tl, e, hc⟩ := renderElems_head xs rest
  rw [e]
  rcases hc with hc | hc
  · exact Or.inl hc
  · exact Or.inr (Or.inl hc)

theorem follows_renderMembers (ms : Members Text) (rest : Text) :
    follows (renderMembers ms ++ rest) := by
  obtain ⟨c, tl, e, hc⟩ := renderMembers_head ms rest
  rw [e]
  rcases hc with hc | hc
  · exact Or.inl hc
  · exact Or.inr (Or.inr hc)

theorem skipSpace_render (j : JSON Text) (h : j.numbersOK = true) (rest : Text) :
    skipSpace (render j ++ rest) = render j ++ rest := by
  obtain ⟨c, tl, e, hc⟩ := render_head j h
  rw [e]
  exact skipSpace_cons c _ hc.1

/-- The loop over the elements of an array reads back the elements the
encoder wrote, when `scanV` reads back each of them. -/
theorem scanElems_render (scanV : Text → Option (JSON Text × Text)) (rest : Text) :
    ∀ (xs : List (JSON Text)) (x : JSON Text) (fuel : Nat),
      (∀ y ∈ x :: xs, y.numbersOK = true) →
      (∀ y ∈ x :: xs, ∀ r, follows r → scanV (render y ++ r) = some (y, r)) →
      xs.length < fuel →
      scanElems scanV fuel (render x ++ (renderElems xs ++ rest)) = some (x :: xs, rest)
  | [], x, fuel, hok, hv, hf => by
    obtain ⟨n, rfl⟩ : ∃ n, fuel = n + 1 := ⟨fuel - 1, by omega⟩
    have hx := hv x (List.mem_cons_self _ _) (renderElems [] ++ rest) (follows_renderElems [] rest)
    rw [scanElems, skipSpace_render x (hok x (List.mem_cons_self _ _)), hx]
    simp only [renderElems, List.cons_append, List.nil_append]
    rw [skipSpace_cons ']' _ (by decide)]
    simp
  | y :: ys, x, fuel, hok, hv, hf => by
    obtain ⟨n, rfl⟩ : ∃ n, fuel = n + 1 := ⟨fuel - 1, by omega⟩
    have hx := hv x (List.mem_cons_self _ _) (renderElems (y :: ys) ++ rest)
      (follows_renderElems (y :: ys) rest)
    have ih := scanElems_render scanV rest ys y n
      (fun z hz => hok z (List.mem_cons_of_mem _ hz))
      (fun z hz => hv z (List.mem_cons_of_mem _ hz))
      (by simp only [List.length_cons] at hf; omega)
    rw [scanElems, skipSpace_render x (hok x (List.mem_cons_self _ _)), hx]
    simp only [renderElems, List.cons_append, List.append_assoc]
    rw [skipSpace_cons ',' _ (by decide)]
    simp only [if_true]
    rw [ih]

/-- The loop over the members of an object reads back the members the
encoder wrote, when `scanV` reads back each value. -/
theorem scanMembers_render (scanV : Text → Option (JSON Text × Text)) (rest : Text) :
    ∀ (ms : Members Text) (k : Text) (x : JSON Text) (fuel : Nat),
      (∀ kv ∈ (k, x) :: ms, kv.2.numbersOK = true) →
      (∀ kv ∈ (k, x) :: ms, ∀ r, follows r → scanV (render kv.2 ++ r) = some (kv.2, r)) →
      ms.length < fuel →
      scanMembers scanV fuel (renderString k ++ ':' :: (render x ++ (renderMembers ms ++ rest))) =
        some ((k, x) :: ms, rest)
  | [], k, x, fuel, hok, hv, hf => by
    obtain ⟨n, rfl⟩ : ∃ n, fuel = n + 1 := ⟨fuel - 1, by omega⟩
    have hx := hv (k, x) (List.mem_cons_self _ _) (renderMembers [] ++ rest)
      (follows_renderMembers [] rest)
    have hs := scanString_escape (':' :: (render x ++ (renderMembers [] ++ rest))) k
    simp only [renderString, List.cons_append, List.append_assoc, List.nil_append, scanMembers]
    rw [skipSpace_cons '"' _ (by decide)]
    simp only [if_true]
    rw [hs]
    simp only []
    rw [skipSpace_cons ':' _ (by decide)]
    simp only [if_true]
    rw [skipSpace_render x (hok (k, x) (List.mem_cons_self _ _)), hx]
    simp only [renderMembers, List.cons_append, List.nil_append]
    rw [skipSpace_cons '}' _ (by decide)]
    simp
  | (k1, y) :: ms, k, x, fuel, hok, hv, hf => by
    obtain ⟨n, rfl⟩ : ∃ n, fuel = n + 1 := ⟨fuel - 1, by omega⟩
    have hx := hv (k, x) (List.mem_cons_self _ _) (renderMembers ((k1, y) :: ms) ++ rest)
      (follows_renderMembers ((k1, y) :: ms) rest)
    have hs := scanString_escape (':' :: (render x ++ (renderMembers ((k1, y) :: ms) ++ rest))) k
    have ih := scanMembers_render scanV rest ms k1 y n
      (fun z hz => hok z (List.mem_cons_of_mem _ hz))
      (fun z hz => hv z (List.mem_cons_of_mem _ hz))
      (by simp only [List.length_cons] at hf; omega)
    simp only [renderString, List.cons_append, List.append_assoc, List.nil_append, scanMembers]
    rw [skipSpace_cons '"' _ (by decide)]
    simp only [if_true]
    rw [hs]
    simp only []
    rw [skipSpace_cons ':' _ (by decide)]
    simp only [if_true]
    rw [skipSpace_render x (hok (k, x) (List.mem_cons_self _ _)), hx]
    simp only [renderMembers, List.cons_append, List.append_assoc]
    rw [skipSpace_cons ',' _ (by decide)]
    simp only [if_true]
    rw [ih]

/-- A value that does not start an array or an object is scanned as a
scalar at any depth. -/
theorem scanValue_scalar (d : Nat) (c : Char) (r : Text) (h1 : c ≠ '[') (h2 : c ≠ '{') :
    scanValue d (c :: r) = scanScalar (c :: r) := by
  cases d with
  | zero => rfl
  | succ d => simp [scanValue, h1, h2]

theorem scanScalar_null (rest : Text) :
    scanScalar ('n' :: 'u' :: 'l' :: 'l' :: rest) = some (.null, rest) := by
  simp [scanScalar]

theorem scanScalar_true (rest : Text) :
    scanScalar ('t' :: 'r' :: 'u' :: 'e' :: rest) = some (.bool true, rest) := by
  simp [scanScalar]

theorem scanScalar_false (rest : Text) :
    scanScalar ('f' :: 'a' :: 'l' :: 's' :: 'e' :: rest) = some (.bool false, rest) := by
  simp [scanScalar]

theorem scanScalar_string (s rest : Text) :
    scanScalar (renderString s ++ rest) = some (.string s, rest) := by
  have hs := scanString_escape rest s
  simp only [renderString, List.cons_append, List.append_assoc, List.nil_append, scanScalar,
    if_true]
  rw [hs]

theorem scanScalar_number (lit rest : Text) (h : numberLiteral lit = true)
    (hr : endsNumber rest = true) : scanScalar (lit ++ rest) = some (.number lit, rest) := by
  obtain ⟨c, tl, e, hc⟩ := numberLiteral_head lit h
  have hn := scanNumber_literal lit rest h hr
  subst e
  have h1 : c ≠ '"' := by
    rcases hc with hc | hc
    · subst hc; decide
    · intro e; subst e; exact absurd hc (by decide)
  have h2 : c ≠ 'n' := by
    rcases hc with hc | hc
    · subst hc; decide
    · intro e; subst e; exact absurd hc (by decide)
  have h3 : c ≠ 't' := by
    rcases hc with hc | hc
    · subst hc; decide
    · intro e; subst e; exact absurd hc (by decide)
  have h4 : c ≠ 'f' := by
    rcases hc with hc | hc
    · subst hc; decide
    · intro e; subst e; exact absurd hc (by decide)
  simp only [List.cons_append] at hn ⊢
  simp only [scanScalar, h1, h2, h3, h4, if_false]
  rw [hn]

theorem scanValue_null (d : Nat) (rest : Text) :
    scanValue d (render .null ++ rest) = some (.null, rest) := by
  simp only [render, List.cons_append, List.nil_append]
  rw [scanValue_scalar d _ _ (by decide) (by decide), scanScalar_null]

theorem scanValue_bool (d : Nat) (b : Bool) (rest : Text) :
    scanValue d (render (.bool b) ++ rest) = some (.bool b, rest) := by
  cases b
  · simp only [render, List.cons_append, List.nil_append]
    rw [scanValue_scalar d _ _ (by decide) (by decide), scanScalar_false]
  · simp only [render, List.cons_append, List.nil_append]
    rw [scanValue_scalar d _ _ (by decide) (by decide), scanScalar_true]

theorem scanValue_string (d : Nat) (s rest : Text) :
    scanValue d (render (.string s) ++ rest) = some (.string s, rest) := by
  have h := scanScalar_string s rest
  simp only [render, renderString, List.cons_append] at h ⊢
  rw [scanValue_scalar d _ _ (by decide) (by decide), h]

theorem scanValue_number (d : Nat) (lit rest : Text) (h : numberLiteral lit = true)
    (hr : endsNumber rest = true) :
    scanValue d (render (.number lit) ++ rest) = some (.number lit, rest) := by
  obtain ⟨c, tl, e, hc⟩ := numberLiteral_head lit h
  have hn := scanScalar_number lit rest h hr
  subst e
  have h1 : c ≠ '[' := by
    rcases hc with hc | hc
    · subst hc; decide
    · intro e; subst e; exact absurd hc (by decide)
  have h2 : c ≠ '{' := by
    rcases hc with hc | hc
    · subst hc; decide
    · intro e; subst e; exact absurd hc (by decide)
  simp only [render, List.cons_append] at hn ⊢
  rw [scanValue_scalar d _ _ h1 h2, hn]

/-- The scanner reads back the tree the encoder wrote: a tree of nesting depth
at most `d` whose numbers are number literals, followed by nothing or by a
comma or a closing bracket or brace, is scanned whole with `d` levels allowed. -/
theorem scanValue_render : ∀ (d : Nat) (j : JSON Text) (rest : Text), j.depth ≤ d →
    j.numbersOK = true → follows rest → scanValue d (render j ++ rest) = some (j, rest)
  | d, .null, rest, _, _, _ => scanValue_null d rest
  | d, .bool b, rest, _, _, _ => scanValue_bool d b rest
  | d, .string s, rest, _, _, _ => scanValue_string d s rest
  | d, .number lit, rest, _, hok, hr =>
    scanValue_number d lit rest (by simpa [JSON.numbersOK] using hok) (endsNumber_of_follows rest hr)
  | 0, .array xs, _, hd, _, _ => by simp [JSON.depth] at hd
  | 0, .object ms, _, hd, _, _ => by simp [JSON.depth] at hd
  | d + 1, .array [], rest, _, _, _ => by
    simp only [render, List.cons_append, List.nil_append, scanValue, if_true]
    rw [skipSpace_cons ']' _ (by decide)]
    simp
  | d + 1, .array (x :: xs), rest, hd, hok, _ => by
    simp only [JSON.depth, Nat.add_le_add_iff_right] at hd
    simp only [JSON.numbersOK] at hok
    have hoks : ∀ y ∈ x :: xs, y.numbersOK = true := fun y hy => numbersOK_of_mem _ y hok hy
    have hv : ∀ y ∈ x :: xs, ∀ r, follows r →
        (fun t => scanValue d t) (render y ++ r) = some (y, r) := fun y hy r hr =>
      scanValue_render d y r (le_trans (depth_le_depthList _ y hy) hd) (hoks y hy) hr
    obtain ⟨c, tl, e, hc⟩ := render_head x (hoks x (List.mem_cons_self _ _))
    have hlen : xs.length < (render x ++ (renderElems xs ++ rest)).length := by
      have := renderElems_length xs
      simp only [List.length_append]
      omega
    have hs := scanElems_render (fun t => scanValue d t) rest xs x _ hoks hv hlen
    rw [render, List.cons_append, List.append_assoc]
    rw [e] at hs ⊢
    simp only [List.cons_append] at hs ⊢
    simp only [scanValue, if_true]
    rw [skipSpace_cons c _ hc.1]
    simp only [hc.2.1, if_false]
    rw [hs]
  | d + 1, .object [], rest, _, _, _ => by
    simp only [render, List.cons_append, List.nil_append, scanValue, if_true]
    rw [skipSpace_cons '}' _ (by decide)]
    simp
  | d + 1, .object ((k, x) :: ms), rest, hd, hok, _ => by
    simp only [JSON.depth, Nat.add_le_add_iff_right] at hd
    simp only [JSON.numbersOK] at hok
    have hoks : ∀ kv ∈ (k, x) :: ms, kv.2.numbersOK = true :=
      fun kv hkv => numbersOK_of_mem_members _ kv hok hkv
    have hv : ∀ kv ∈ (k, x) :: ms, ∀ r, follows r →
        (fun t => scanValue d t) (render kv.2 ++ r) = some (kv.2, r) := fun kv hkv r hr =>
      scanValue_render d kv.2 r (le_trans (depth_le_depthMembers _ kv hkv) hd) (hoks kv hkv) hr
    have hlen : ms.length <
        (renderString k ++ ':' :: (render x ++ (renderMembers ms ++ rest))).length := by
      have := renderMembers_length ms
      simp only [List.length_append, List.length_cons]
      omega
    have hs := scanMembers_render (fun t => scanValue d t) rest ms k x _ hoks hv hlen
    rw [render, List.cons_append, List.append_assoc, List.cons_append, List.append_assoc]
    simp only [renderString, List.cons_append] at hs ⊢
    simp only [scanValue, if_true, show ¬ ('{' = '[') by decide, if_false]
    rw [skipSpace_cons '"' _ (by decide)]
    simp only [show ¬ ('"' = '}') by decide, if_false]
    rw [hs]

/-! ## Decoding what the encoder wrote -/

mutual
/-- Decoding the tree written for a Go value gives the value back; the tree
has number literals for numbers and the depth of the value. -/
theorem valueInterface_formatNumbers {F : Type} (sc : Strconv F) (hsc : sc.RoundTrips) :
    ∀ (v : JSON F) (j : JSON Text), v.isValue = true → formatNumbers sc v = some j →
      valueInterface sc j = some v ∧ j.numbersOK = true ∧ j.depth = v.depth
  | .null, j, _, h => by
    simp only [formatNumbers, Option.some.injEq] at h
    subst h
    exact ⟨rfl, rfl, rfl⟩
  | .bool b, j, _, h => by
    simp only [formatNumbers, Option.some.injEq] at h
    subst h
    exact ⟨rfl, rfl, rfl⟩
  | .string s, j, _, h => by
    simp only [formatNumbers, Option.some.injEq] at h
    subst h
    exact ⟨rfl, rfl, rfl⟩
  | .number f, j, _, h => by
    simp only [formatNumbers] at h
    cases hf : sc.formatFloat f with
    | none => simp [hf] at h
    | some lit =>
      simp only [hf, Option.some.injEq] at h
      subst h
      obtain ⟨h1, h2⟩ := hsc f lit hf
      exact ⟨by simp [valueInterface, h2], by simpa [JSON.numbersOK] using h1, rfl⟩
  | .array xs, j, hv, h => by
    simp only [formatNumbers] at h
    cases hf : formatNumbersList sc xs with
    | none => simp [hf] at h
    | some ys =>
      simp only [hf, Option.some.injEq] at h
      subst h
      obtain ⟨h1, h2, h3⟩ := arrayInterface_formatNumbers sc hsc xs ys
        (by simpa [JSON.isValue] using hv) hf
      exact ⟨by simp [valueInterface, h1], by simpa [JSON.numbersOK] using h2,
        by simp [JSON.depth, h3]⟩
  | .object ms, j, hv, h => by
    simp only [formatNumbers] at h
    simp only [JSON.isValue, Bool.and_eq_true] at hv
    cases hf : formatNumbersMembers sc ms with
    | none => simp [hf] at h
    | some kvs =>
      simp only [hf, Option.some.injEq] at h
      subst h
      obtain ⟨h1, h2, h3⟩ := objectInterface_formatNumbers sc hsc ms kvs hv.2 hf
      have hs := setKeys_sorted ms (sorted_of_ascending ms hv.1)
      exact ⟨by simp [valueInterface, h1, hs], by simpa [JSON.numbersOK] using h2,
        by simp [JSON.depth, h3]⟩
/-- The elements of a slice. -/
theorem arrayInterface_formatNumbers {F : Type} (sc : Strconv F) (hsc : sc.RoundTrips) :
    ∀ (xs : List (JSON F)) (ys : List (JSON Text)), JSON.isValueList xs = true →
      formatNumbersList sc xs = some ys →
      arrayInterface sc ys = some xs ∧ JSON.numbersOKList ys = true ∧
        JSON.depthList ys = JSON.depthList xs
  | [], ys, _, h => by
    simp only [formatNumbersList, Option.some.injEq] at h
    subst h
    exact ⟨rfl, rfl, rfl⟩
  | x :: xs, ys, hv, h => by
    simp only [JSON.isValueList, Bool.and_eq_true] at hv
    simp only [formatNumbersList] at h
    cases hx : formatNumbers sc x with
    | none => simp [hx] at h
    | some y =>
      cases hxs : formatNumbersList sc xs with
      | none => simp [hx, hxs] at h
      | some ys1 =>
        simp only [hx, hxs, Option.some.injEq] at h
        subst h
        obtain ⟨a1, a2, a3⟩ := valueInterface_formatNumbers sc hsc x y hv.1 hx
        obtain ⟨b1, b2, b3⟩ := arrayInterface_formatNumbers sc hsc xs ys1 hv.2 hxs
        exact ⟨by simp [arrayInterface, a1, b1], by simp [JSON.numbersOKList, a2, b2],
          by simp [JSON.depthList, a3, b3]⟩
/-- The entries of a map. -/
theorem objectInterface_formatNumbers {F : Type} (sc : Strconv F) (hsc : sc.RoundTrips) :
    ∀ (ms : Members F) (kvs : Members Text), JSON.isValueMembers ms = true →
      formatNumbersMembers sc ms = some kvs →
      objectInterface sc kvs = some ms ∧ JSON.numbersOKMembers kvs = true ∧
        JSON.depthMembers kvs = JSON.depthMembers ms
  | [], kvs, _, h => by
    simp only [formatNumbersMembers, Option.some.injEq] at h
    subst h
    exact ⟨rfl, rfl, rfl⟩
  | (k, x) :: ms, kvs, hv, h => by
    simp only [JSON.isValueMembers, Bool.and_eq_true] at hv
    simp only [formatNumbersMembers] at h
    cases hx : formatNumbers sc x with
    | none => simp [hx] at h
    | some y =>
      cases hxs : formatNumbersMembers sc ms with
      | none => simp [hx, hxs] at h
      | some kvs1 =>
        simp only [hx, hxs, Option.some.injEq] at h
        subst h
        obtain ⟨a1, a2, a3⟩ := valueInterface_formatNumbers sc hsc x y hv.1 hx
        obtain ⟨b1, b2, b3⟩ := objectInterface_formatNumbers sc hsc ms kvs1 hv.2 hxs
        exact ⟨by simp [objectInterface, a1, b1], by simp [JSON.numbersOKMembers, a2, b2],
          by simp [JSON.depthMembers, a3, b3]⟩
end

/-! ## The codec: Unmarshal after Marshal -/

theorem checkValid_render (j : JSON Text) (hd : j.depth ≤ maxNestingDepth)
    (hok : j.numbersOK = true) : checkValid (render j) = some j := by
  have h1 := skipSpace_render j hok []
  have h2 := scanValue_render maxNestingDepth j [] hd hok trivial
  simp only [List.append_nil] at h1 h2
  simp [checkValid, h1, h2, skipSpace]

theorem checkValid_null : checkValid ['n', 'u', 'l', 'l'] = some .null :=
  checkValid_render .null (Nat.zero_le _) rfl

/-- Decoding the text `Marshal` wrote for a representable payload gives the
payload back, into a nil map and into the map that was encoded. -/
theorem Unmarshal_Marshal {F : Type} (sc : Strconv F) (hsc : sc.RoundTrips)
    (data : Option (Members F)) (raw : Text) (hrep : Representable data)
    (h : Marshal sc data = some raw) :
    Unmarshal sc raw none = some data ∧ Unmarshal sc raw data = some data := by
  cases data with
  | none =>
    simp only [Marshal, Option.some.injEq] at h
    subst h
    simp [Unmarshal, checkValid_null, unmarshalMap]
  | some m =>
    simp only [Marshal] at h
    cases hf : formatNumbers sc (.object m) with
    | none => simp [hf] at h
    | some j =>
      simp only [hf, Option.some.injEq] at h
      subst h
      obtain ⟨hv, hd⟩ := hrep
      obtain ⟨_, h2, h3⟩ := valueInterface_formatNumbers sc hsc (.object m) j hv hf
      have hc := checkValid_render j (by rw [h3]; exact hd) h2
      simp only [formatNumbers] at hf
      cases hm : formatNumbersMembers sc m with
      | none => simp [hm] at hf
      | some kvs =>
        simp only [hm, Option.some.injEq] at hf
        subst hf
        simp only [JSON.isValue, Bool.and_eq_true] at hv
        obtain ⟨b1, _, _⟩ := objectInterface_formatNumbers sc hsc m kvs hv.2 hm
        have hs := sorted_of_ascending m hv.1
        simp [Unmarshal, hc, unmarshalMap, b1, setKeys_sorted m hs, setKeys_self m hs]

/-! ## Decoded values are representable -/

theorem keyLess_total : ∀ (a b : Text), keyLess a b = false → keyLess b a = false → a = b
  | [], [], _, _ => rfl
  | [], _ :: _, h, _ => by simp [keyLess] at h
  | _ :: _, [], _, h => by simp [keyLess] at h
  | x :: xs, y :: ys, h1, h2 => by
    simp only [keyLess] at h1 h2
    by_cases hxy : x < y
    · simp [hxy] at h1
    · by_cases hyx : y < x
      · simp [hyx] at h2
      · have e : x = y := le_antisymm (not_lt.1 hyx) (not_lt.1 hxy)
        subst e
        simp only [lt_irrefl, if_false, if_true] at h1 h2
        rw [keyLess_total xs ys h1 h2]

theorem mem_setKey {α : Type} (k : Text) (v : α) : ∀ (m : List (Text × α)) (a : Text × α),
    a ∈ setKey k v m → a = (k, v) ∨ a ∈ m
  | [], a, h => by
    simp only [setKey, List.mem_singleton] at h
    exact Or.inl h
  | (k1, v1) :: m, a, h => by
    simp only [setKey] at h
    by_cases h1 : keyLess k k1 = true
    · rw [if_pos h1] at h
      rcases List.mem_cons.1 h with h | h
      · exact Or.inl h
      · exact Or.inr h
    · rw [if_neg h1] at h
      by_cases h2 : k = k1
      · rw [if_pos h2] at h
        rcases List.mem_cons.1 h with h | h
        · exact Or.inl h
        · exact Or.inr (List.mem_cons_of_mem _ h)
      · rw [if_neg h2] at h
        rcases List.mem_cons.1 h with h | h
        · exact Or.inr (h ▸ List.mem_cons_self _ _)
        · rcases mem_setKey k v m a h with h | h
          · exact Or.inl h
          · exact Or.inr (List.mem_cons_of_mem _ h)

theorem setKey_sorted {α : Type} (k : Text) (v : α) : ∀ (m : List (Text × α)), Sorted m →
    Sorted (setKey k v m)
  | [], _ => List.pairwise_singleton _ _
  | (k1, v1) :: m, hs => by
    have hs1 : ∀ a ∈ m, keyLess k1 a.1 = true := fun a ha => List.rel_of_pairwise_cons hs ha
    have hm : Sorted m := List.Pairwise.of_cons hs
    simp only [setKey]
    by_cases h1 : keyLess k k1 = true
    · simp only [h1, if_true]
      refine List.Pairwise.cons ?_ hs
      intro a ha
      rcases List.mem_cons.1 ha with ha | ha
      · subst ha; exact h1
      · exact keyLess_trans k k1 a.1 h1 (hs1 a ha)
    · simp only [h1, if_false]
      by_cases h2 : k = k1
      · simp only [h2, if_true]
        exact List.Pairwise.cons hs1 hm
      · simp only [h2, if_false]
        have h3 : keyLess k1 k = true := by
          cases h : keyLess k1 k with
          | true => rfl
          | false => exact absurd (keyLess_total k k1 (by simpa using h1) h) h2
        refine List.Pairwise.cons ?_ (setKey_sorted k v m hm)
        intro a ha
        rcases mem_setKey k v m a ha with ha | ha
        · subst ha; exact h3
        · exact hs1 a ha

theorem setKeys_sorted_of {α : Type} : ∀ (kvs m : List (Text × α)), Sorted m →
    Sorted (setKeys kvs m)
  | [], _, h => h
  | (k, v) :: kvs, m, h => by
    simp only [setKeys, List.foldl_cons]
    exact setKeys_sorted_of kvs (setKey k v m) (setKey_sorted k v m h)

theorem mem_setKeys {α : Type} : ∀ (kvs m : List (Text × α)) (a : Text × α),
    a ∈ setKeys kvs m → a ∈ kvs ∨ a ∈ m
  | [], _, _, h => Or.inr h
  | (k, v) :: kvs, m, a, h => by
    simp only [setKeys, List.foldl_cons] at h
    rcases mem_setKeys kvs (setKey k v m) a h with h | h
    · exact Or.inl (List.mem_cons_of_mem _ h)
    · rcases mem_setKey k v m a h with h | h
      · exact Or.inl (by simp [h])
      · exact Or.inr h

theorem ascending_of_pairwise : ∀ (ks : List Text),
    ks.Pairwise (fun a b => keyLess a b = true) → ascending ks = true
  | [], _ => rfl
  | [_], _ => rfl
  | k1 :: k2 :: ks, h => by
    simp only [ascending, Bool.and_eq_true]
    exact ⟨List.rel_of_pairwise_cons h (List.mem_cons_self _ _),
      ascending_of_pairwise (k2 :: ks) (List.Pairwise.of_cons h)⟩

theorem ascending_of_sorted {α : Type} (m : List (Text × α)) (h : Sorted m) :
    ascending (m.map Prod.fst) = true :=
  ascending_of_pairwise _ (List.pairwise_map.2 h)

theorem isValueMembers_iff {N : Type} : ∀ (ms : Members N),
    JSON.isValueMembers ms = true ↔ ∀ kv ∈ ms, kv.2.isValue = true
  | [] => ⟨fun _ _ h => absurd h (List.not_mem_nil _), fun _ => rfl⟩
  | (k, x) :: ms => by
    simp only [JSON.isValueMembers, Bool.and_eq_true, isValueMembers_iff ms]
    constructor
    · intro h kv hkv
      rcases List.mem_cons.1 hkv with e | e
      · rw [e]; exact h.1
      · exact h.2 kv e
    · intro h
      exact ⟨h (k, x) (List.mem_cons_self _ _), fun kv hkv => h kv (List.mem_cons_of_mem _ hkv)⟩

theorem depthMembers_le_iff {N : Type} (d : Nat) : ∀ (ms : Members N),
    JSON.depthMembers ms ≤ d ↔ ∀ kv ∈ ms, kv.2.depth ≤ d
  | [] => ⟨fun _ _ h => absurd h (List.not_mem_nil _), fun _ => Nat.zero_le _⟩
  | (k, x) :: ms => by
    simp only [JSON.depthMembers, max_le_iff, depthMembers_le_iff d ms]
    constructor
    · intro h kv hkv
      rcases List.mem_cons.1 hkv with e | e
      · rw [e]; exact h.1
      · exact h.2 kv e
    · intro h
      exact ⟨h (k, x) (List.mem_cons_self _ _), fun kv hkv => h kv (List.mem_cons_of_mem _ hkv)⟩

mutual
/-- The value decoded from a scanned tree is a Go value, nested no deeper
than the tree. -/
theorem valueInterface_isValue {F : Type} (sc : Strconv F) :
    ∀ (j : JSON Text) (v : JSON F), valueInterface sc j = some v →
      v.isValue = true ∧ v.depth ≤ j.depth
  | .null, v, h => by
    simp only [valueInterface, Option.some.injEq] at h
    subst h
    exact ⟨rfl, le_refl _⟩
  | .bool b, v, h => by
    simp only [valueInterface, Option.some.injEq] at h
    subst h
    exact ⟨rfl, le_refl _⟩
  | .string s, v, h => by
    simp only [valueInterface, Option.some.injEq] at h
    subst h
    exact ⟨rfl, le_refl _⟩
  | .number lit, v, h => by
    simp only [valueInterface] at h
    cases hf : sc.parseFloat lit with
    | none => simp [hf] at h
    | some f =>
      simp only [hf, Option.some.injEq] at h
      subst h
      exact ⟨rfl, le_refl _⟩
  | .array xs, v, h => by
    simp only [valueInterface] at h
    cases hf : arrayInterface sc xs with
    | none => simp [hf] at h
    | some ys =>
      simp only [hf, Option.some.injEq] at h
      subst h
      obtain ⟨h1, h2⟩ := arrayInterface_isValue sc xs ys hf
      exact ⟨by simpa [JSON.isValue] using h1, by simpa [JSON.depth] using h2⟩
  | .object ms, v, h => by
    simp only [valueInterface] at h
    cases hf : objectInterface sc ms with
    | none => simp [hf] at h
    | some kvs =>
      simp only [hf, Option.some.injEq] at h
      subst h
      obtain ⟨h1, h2⟩ := objectInterface_isValue sc ms kvs hf
      have hs : Sorted (setKeys kvs []) := setKeys_sorted_of kvs [] List.Pairwise.nil
      have hmem : ∀ kv ∈ setKeys kvs [], kv ∈ kvs := fun kv hkv => by
        rcases mem_setKeys kvs [] kv hkv with h | h
        · exact h
        · simp at h
      refine ⟨?_, ?_⟩
      · simp only [JSON.isValue, Bool.and_eq_true]
        exact ⟨ascending_of_sorted _ hs,
          (isValueMembers_iff _).2 (fun kv hkv => (isValueMembers_iff kvs).1 h1 kv (hmem kv hkv))⟩
      · simp only [JSON.depth, Nat.add_le_add_iff_right]
        exact (depthMembers_le_iff _ _).2
          (fun kv hkv => (depthMembers_le_iff _ kvs).1 h2 kv (hmem kv hkv))
/-- The elements decoded from an array. -/
theorem arrayInterface_isValue {F : Type} (sc : Strconv F) :
    ∀ (xs : List (JSON Text)) (ys : List (JSON F)), arrayInterface sc xs = some ys →
      JSON.isValueList ys = true ∧ JSON.depthList ys ≤ JSON.depthList xs
  | [], ys, h => by
    simp only [arrayInterface, Option.some.injEq] at h
    subst h
    exact ⟨rfl, le_refl _⟩
  | x :: xs, ys, h => by
    simp only [arrayInterface] at h
    cases hx : valueInterface sc x with
    | none => simp [hx] at h
    | some y =>
      cases hxs : arrayInterface sc xs with
      | none => simp [hx, hxs] at h
      | some ys1 =>
        simp only [hx, hxs, Option.some.injEq] at h
        subst h
        obtain ⟨a1, a2⟩ := valueInterface_isValue sc x y hx
        obtain ⟨b1, b2⟩ := arrayInterface_isValue sc xs ys1 hxs
        exact ⟨by simp [JSON.isValueList, a1, b1], by
          simp only [JSON.depthList]
          exact max_le_max a2 b2⟩
/-- The members decoded from an object, before they are assigned to the map. -/
theorem objectInterface_isValue {F : Type} (sc : Strconv F) :
    ∀ (ms : Members Text) (kvs : Members F), objectInterface sc ms = some kvs →
      JSON.isValueMembers kvs = true ∧ JSON.depthMembers kvs ≤ JSON.depthMembers ms
  | [], kvs, h => by
    simp only [objectInterface, Option.some.injEq] at h
    subst h
    exact ⟨rfl, le_refl _⟩
  | (k, x) :: ms, kvs, h => by
    simp only [objectInterface] at h
    cases hx : valueInterface sc x with
    | none => simp [hx] at h
    | some y =>
      cases hxs : objectInterface sc ms with
      | none => simp [hx, hxs] at h
      | some kvs1 =>
        simp only [hx, hxs, Option.some.injEq] at h
        subst h
        obtain ⟨a1, a2⟩ := valueInterface_isValue sc x y hx
        obtain ⟨b1, b2⟩ := objectInterface_isValue sc ms kvs1 hxs
        exact ⟨by simp [JSON.isValueMembers, a1, b1], by
          simp only [JSON.depthMembers]
          exact max_le_max a2 b2⟩
end

theorem scanScalar_depth (input rest : Text) (j : JSON Text)
    (h : scanScalar input = some (j, rest)) : j.depth = 0 := by
  cases input with
  | nil => simp [scanScalar] at h
  | cons c r =>
    simp only [scanScalar] at h
    repeat' split at h
    all_goals first
      | (simp only [Option.some.injEq, Prod.mk.injEq] at h; obtain ⟨rfl, _⟩ := h; rfl)
      | (exact absurd h (by simp))

theorem scanElems_depth (scanV : Text → Option (JSON Text × Text)) (d : Nat)
    (hv : ∀ t v r, scanV t = some (v, r) → v.depth ≤ d) :
    ∀ (fuel : Nat) (input : Text) (xs : List (JSON Text)) (rest : Text),
      scanElems scanV fuel input = some (xs, rest) → JSON.depthList xs ≤ d
  | 0, _, _, _, h => by simp [scanElems] at h
  | fuel + 1, input, xs, rest, h => by
    simp only [scanElems] at h
    cases hx : scanV (skipSpace input) with
    | none => simp [hx] at h
    | some p =>
      obtain ⟨v, r1⟩ := p
      have hvd := hv _ _ _ hx
      simp only [hx] at h
      cases hs : skipSpace r1 with
      | nil => simp [hs] at h
      | cons c r2 =>
        simp only [hs] at h
        by_cases hc : c = ','
        · simp only [hc, if_true] at h
          cases hr : scanElems scanV fuel r2 with
          | none => simp [hr] at h
          | some q =>
            obtain ⟨vs, r3⟩ := q
            simp only [hr, Option.some.injEq, Prod.mk.injEq] at h
            obtain ⟨rfl, _⟩ := h
            simp only [JSON.depthList]
            exact max_le hvd (scanElems_depth scanV d hv fuel r2 vs r3 hr)
        · simp only [hc, if_false] at h
          by_cases hc2 : c = ']'
          · simp only [hc2, if_true, Option.some.injEq, Prod.mk.injEq] at h
            obtain ⟨rfl, _⟩ := h
            simp only [JSON.depthList]
            exact max_le hvd (Nat.zero_le _)
          · simp [hc2] at h

theorem scanMembers_depth (scanV : Text → Option (JSON Text × Text)) (d : Nat)
    (hv : ∀ t v r, scanV t = some (v, r) → v.depth ≤ d) :
    ∀ (fuel : Nat) (input : Text) (ms : Members Text) (rest : Text),
      scanMembers scanV fuel input = some (ms, rest) → JSON.depthMembers ms ≤ d
  | 0, _, _, _, h => by simp [scanMembers] at h
  | fuel + 1, input, ms, rest, h => by
    simp only [scanMembers] at h
    cases hs0 : skipSpace input with
    | nil => simp [hs0] at h
    | cons q r =>
      simp only [hs0] at h
      by_cases hq : q = '"'
      · simp only [hq, if_true] at h
        cases hk : scanString r with
        | none => simp [hk] at h
        | some p0 =>
          obtain ⟨k, r1⟩ := p0
          simp only [hk] at h
          cases hs1 : skipSpace r1 with
          | nil => simp [hs1] at h
          | cons c r2 =>
            simp only [hs1] at h
            by_cases hc : c = ':'
            · simp only [hc, if_true] at h
              cases hx : scanV (skipSpace r2) with
              | none => simp [hx] at h
              | some p =>
                obtain ⟨v, r3⟩ := p
                have hvd := hv _ _ _ hx
                simp only [hx] at h
                cases hs : skipSpace r3 with
                | nil => simp [hs] at h
                | cons e r4 =>
                  simp only [hs] at h
                  by_cases he : e = ','
                  · simp only [he, if_true] at h
                    cases hr : scanMembers scanV fuel r4 with
                    | none => simp [hr] at h
                    | some q1 =>
                      obtain ⟨vs, r5⟩ := q1
                      simp only [hr, Option.some.injEq, Prod.mk.injEq] at h
                      obtain ⟨rfl, _⟩ := h
                      simp only [JSON.depthMembers]
                      exact max_le hvd (scanMembers_depth scanV d hv fuel r4 vs r5 hr)
                  · simp only [he, if_false] at h
                    by_cases he2 : e = '}'
                    · simp only [he2, if_true, Option.some.injEq, Prod.mk.injEq] at h
                      obtain ⟨rfl, _⟩ := h
                      simp only [JSON.depthMembers]
                      exact max_le hvd (Nat.zero_le _)
                    · simp [he2] at h
            · simp [hc] at h
      · simp [hq] at h

/-- A scanned tree is nested no deeper than the scanner allows. -/
theorem scanValue_depth : ∀ (d : Nat) (input rest : Text) (j : JSON Text),
    scanValue d input = some (j, rest) → j.depth ≤ d
  | 0, input, rest, j, h => by
    rw [scanValue] at h
    rw [scanScalar_depth input rest j h]
  | d + 1, input, rest, j, h => by
    have ih : ∀ t v r, (fun t => scanValue d t) t = some (v, r) → v.depth ≤ d :=
      fun t v r ht => scanValue_depth d t r v ht
    cases input with
    | nil => simp [scanValue] at h
    | cons c r =>
      simp only [scanValue] at h
      by_cases hc : c = '['
      · simp only [hc, if_true] at h
        cases hs : skipSpace r with
        | nil => simp [hs] at h
        | cons c1 r1 =>
          simp only [hs] at h
          by_cases hc1 : c1 = ']'
          · simp only [hc1, if_true, Option.some.injEq, Prod.mk.injEq] at h
            obtain ⟨rfl, _⟩ := h
            simp [JSON.depth, JSON.depthList]
          · simp only [hc1, if_false, List.length_cons] at h
            cases he : scanElems (fun t => scanValue d t) (r1.length + 1) (c1 :: r1) with
            | none => simp [he] at h
            | some q =>
              obtain ⟨xs, r2⟩ := q
              simp only [he, Option.some.injEq, Prod.mk.injEq] at h
              obtain ⟨rfl, _⟩ := h
              simp only [JSON.depth, Nat.add_le_add_iff_right]
              exact scanElems_depth _ d ih _ _ _ _ he
      · simp only [hc, if_false] at h
        by_cases hc2 : c = '{'
        · simp only [hc2, if_true] at h
          cases hs : skipSpace r with
          | nil => simp [hs] at h
          | cons c1 r1 =>
            simp only [hs] at h
            by_cases hc1 : c1 = '}'
            · simp only [hc1, if_true, Option.some.injEq, Prod.mk.injEq] at h
              obtain ⟨rfl, _⟩ := h
              simp [JSON.depth, JSON.depthMembers]
            · simp only [hc1, if_false, List.length_cons] at h
              cases he : scanMembers (fun t => scanValue d t) (r1.length + 1) (c1 :: r1) with
              | none => simp [he] at h
              | some q =>
                obtain ⟨xs, r2⟩ := q
                simp only [he, Option.some.injEq, Prod.mk.injEq] at h
                obtain ⟨rfl, _⟩ := h
                simp only [JSON.depth, Nat.add_le_add_iff_right]
                exact scanMembers_depth _ d ih _ _ _ _ he
        · simp only [hc2, if_false] at h
          rw [scanScalar_depth _ rest j h]
          exact Nat.zero_le _

theorem readValue_depth (body : Text) (j : JSON Text) (h : readValue body = some j) :
    j.depth ≤ maxNestingDepth := by
  simp only [readValue] at h
  cases hs : scanValue maxNestingDepth (skipSpace body) with
  | none => simp [hs] at h
  | some p =>
    obtain ⟨j1, r⟩ := p
    simp only [hs, Option.some.injEq] at h
    subst h
    exact scanValue_depth _ _ _ _ hs

/-- The payload bound from a request body is representable. -/
theorem Decode_representable {F : Type} (sc : Strconv F) (body : Text)
    (data : Option (Members F)) (h : Decode sc body none = some data) : Representable data := by
  simp only [Decode] at h
  cases hr : readValue body with
  | none => simp [hr] at h
  | some j =>
    simp only [hr] at h
    have hd := readValue_depth body j hr
    cases j with
    | null =>
      simp only [unmarshalMap, Option.some.injEq] at h
      subst h
      trivial
    | object ms =>
      have hv : ∃ v, valueInterface sc (.object ms) = some v ∧ some data = some (match v with
          | .object m => some m
          | _ => none) := by
        simp only [unmarshalMap] at h
        cases ho : objectInterface sc ms with
        | none => simp [ho] at h
        | some kvs =>
          simp only [ho, Option.getD_none, Option.some.injEq] at h
          exact ⟨.object (setKeys kvs []), by simp [valueInterface, ho], by rw [← h]⟩
      obtain ⟨v, hv1, hv2⟩ := hv
      obtain ⟨a1, a2⟩ := valueInterface_isValue sc _ v hv1
      simp only [valueInterface] at hv1
      cases ho : objectInterface sc ms with
      | none => simp [ho] at hv1
      | some kvs =>
        simp only [ho, Option.some.injEq] at hv1
        subst hv1
        simp only [Option.some.injEq] at hv2
        subst hv2
        exact ⟨a1, le_trans a2 hd⟩
    | bool b => simp [unmarshalMap] at h
    | number n => simp [unmarshalMap] at h
    | string s => simp [unmarshalMap] at h
    | array xs => simp [unmarshalMap] at h

/-- One opening bracket more than the scanner allows is refused, whatever follows. -/
theorem scanValue_deep : ∀ (d : Nat) (rest : Text),
    scanValue d (List.replicate (d + 1) '[' ++ rest) = none
  | 0, rest => by
    simp [List.replicate, scanValue, scanScalar, scanNumber, scanInt, isDigit]
  | d + 1, rest => by
    have ih := scanValue_deep d rest
    rw [List.replicate_succ, List.cons_append] at ih ⊢
    rw [List.replicate_succ, List.cons_append]
    simp only [scanValue, if_true]
    rw [skipSpace_cons '[' _ (by decide)]
    simp only [show ¬ ('[' = ']') by decide, if_false, List.length_cons, scanElems]
    rw [skipSpace_cons '[' _ (by decide), ih]

theorem scanValue_deepObject (d : Nat) (rest : Text) :
    scanValue (d + 1) ('{' :: '"' :: 'a' :: '"' :: ':' :: (List.replicate (d + 1) '[' ++ rest)) =
      none := by
  have h := scanValue_deep d rest
  have hk : scanString ('a' :: '"' :: ':' :: (List.replicate (d + 1) '[' ++ rest)) =
      some (['a'], ':' :: (List.replicate (d + 1) '[' ++ rest)) := by
    have := scanString_escape (':' :: (List.replicate (d + 1) '[' ++ rest)) ['a']
    simpa [escape, escapeChar, htmlSafe] using this
  simp only [scanValue, show ¬ ('{' = '[') by decide, if_false, if_true]
  rw [skipSpace_cons '"' _ (by decide)]
  simp only [show ¬ ('"' = '}') by decide, if_false, List.length_cons, scanMembers]
  rw [skipSpace_cons '"' _ (by decide)]
  simp only [if_true, hk]
  rw [skipSpace_cons ':' _ (by decide)]
  simp only [if_true]
  rw [List.replicate_succ, List.cons_append, skipSpace_cons '[' _ (by decide)]
  rw [List.replicate_succ, List.cons_append] at h
  rw [h]

/-- When the scanner fails on what follows the leading white space, no value
is read. -/
theorem readValue_none (body s : Text) (hs : skipSpace body = s)
    (h : scanValue maxNestingDepth s = none) : readValue body = none := by
  simp only [readValue, hs, h]

/-- An object nested deeper than the scanner allows is not read, whatever
follows the opening brackets. -/
theorem readValue_deepBody (rest : Text) : readValue (deepBody ++ rest) = none := by
  have e : maxNestingDepth = 9999 + 1 := rfl
  have e1 : deepBody ++ rest =
      '{' :: '"' :: 'a' :: '"' :: ':' :: (List.replicate (9999 + 1) '[' ++ rest) := by
    simp only [deepBody, List.cons_append, List.nil_append, e]
  have h : scanValue maxNestingDepth
      ('{' :: '"' :: 'a' :: '"' :: ':' :: (List.replicate (9999 + 1) '[' ++ rest)) = none := by
    rw [e]
    exact scanValue_deepObject 9999 rest
  rw [e1]
  exact readValue_none _ _ (skipSpace_cons '{' _ (by decide)) h

theorem readValue_of_checkValid (body : Text) (j : JSON Text) (h : checkValid body = some j) :
    readValue body = some j := by
  simp only [checkValid] at h
  simp only [readValue]
  cases hs : scanValue maxNestingDepth (skipSpace body) with
  | none => simp [hs] at h
  | some p =>
    obtain ⟨j1, r⟩ := p
    simp only [hs] at h ⊢
    by_cases hr : skipSpace r = []
    · simpa [hr] using h
    · simp [hr] at h

theorem checkValid_some (body s : Text) (j : JSON Text) (rest : Text) (hs : skipSpace body = s)
    (h : scanValue maxNestingDepth s = some (j, rest)) (hend : skipSpace rest = []) :
    checkValid body = some j := by
  subst hs
  simp only [checkValid, h, hend, if_true]


/-! ## The nesting limit only rejects -/

theorem scanScalar_bracket (r : Text) : scanScalar ('[' :: r) = none := by
  simp [scanScalar, scanNumber, scanInt, isDigit]

theorem scanScalar_brace (r : Text) : scanScalar ('{' :: r) = none := by
  simp [scanScalar, scanNumber, scanInt, isDigit]

theorem scanElems_within (scanV scanW : Text → Option (JSON Text × Text)) (d : Nat)
    (hv : ∀ t v r, scanV t = some (v, r) → v.depth ≤ d → scanW t = some (v, r)) :
    ∀ (fuel : Nat) (input : Text) (xs : List (JSON Text)) (rest : Text),
      scanElems scanV fuel input = some (xs, rest) → JSON.depthList xs ≤ d →
      scanElems scanW fuel input = some (xs, rest)
  | 0, _, _, _, h, _ => by simp [scanElems] at h
  | fuel + 1, input, xs, rest, h, hd => by
    simp only [scanElems] at h ⊢
    cases hx : scanV (skipSpace input) with
    | none => simp [hx] at h
    | some p =>
      obtain ⟨v, r1⟩ := p
      simp only [hx] at h
      cases hs : skipSpace r1 with
      | nil => simp [hs] at h
      | cons c r2 =>
        simp only [hs] at h
        by_cases hc : c = ','
        · simp only [hc, if_true] at h
          cases hr : scanElems scanV fuel r2 with
          | none => simp [hr] at h
          | some q =>
            obtain ⟨vs, r3⟩ := q
            simp only [hr, Option.some.injEq, Prod.mk.injEq] at h
            obtain ⟨rfl, rfl⟩ := h
            simp only [JSON.depthList] at hd
            have h1 := hv _ _ _ hx (le_trans (le_max_left _ _) hd)
            have h2 := scanElems_within scanV scanW d hv fuel r2 vs r3 hr
              (le_trans (le_max_right _ _) hd)
            simp only [h1, hs, hc, if_true, h2]
        · simp only [hc, if_false] at h
          by_cases hc2 : c = ']'
          · simp only [hc2, if_true, Option.some.injEq, Prod.mk.injEq] at h
            obtain ⟨rfl, rfl⟩ := h
            simp only [JSON.depthList] at hd
            have h1 := hv _ _ _ hx (le_trans (le_max_left _ _) hd)
            subst hc2
            simp only [h1, hs]
            rfl
          · simp [hc2] at h

theorem scanMembers_within (scanV scanW : Text → Option (JSON Text × Text)) (d : Nat)
    (hv : ∀ t v r, scanV t = some (v, r) → v.depth ≤ d → scanW t = some (v, r)) :
    ∀ (fuel : Nat) (input : Text) (ms : Members Text) (rest : Text),
      scanMembers scanV fuel input = some (ms, rest) → JSON.depthMembers ms ≤ d →
      scanMembers scanW fuel input = some (ms, rest)
  | 0, _, _, _, h, _ => by simp [scanMembers] at h
  | fuel + 1, input, ms, rest, h, hd => by
    simp only [scanMembers] at h ⊢
    cases hs0 : skipSpace input with
    | nil => simp [hs0] at h
    | cons q r =>
      simp only [hs0] at h
      by_cases hq : q = '"'
      · simp only [hq, if_true] at h
        cases hk : scanString r with
        | none => simp [hk] at h
        | some p0 =>
          obtain ⟨k, r1⟩ := p0
          simp only [hk] at h
          cases hs1 : skipSpace r1 with
          | nil => simp [hs1] at h
          | cons c r2 =>
            simp only [hs1] at h
            by_cases hc : c = ':'
            · simp only [hc, if_true] at h
              cases hx : scanV (skipSpace r2) with
              | none => simp [hx] at h
              | some p =>
                obtain ⟨v, r3⟩ := p
                simp only [hx] at h
                cases hs : skipSpace r3 with
                | nil => simp [hs] at h
                | cons e r4 =>
                  simp only [hs] at h
                  by_cases he : e = ','
                  · simp only [he, if_true] at h
                    cases hr : scanMembers scanV fuel r4 with
                    | none => simp [hr] at h
                    | some q1 =>
                      obtain ⟨vs, r5⟩ := q1
                      simp only [hr, Option.some.injEq, Prod.mk.injEq] at h
                      obtain ⟨rfl, rfl⟩ := h
                      simp only [JSON.depthMembers] at hd
                      have h1 := hv _ _ _ hx (le_trans (le_max_left _ _) hd)
                      have h2 := scanMembers_within scanV scanW d hv fuel r4 vs r5 hr
                        (le_trans (le_max_right _ _) hd)
                      simp only [hq, if_true, hk, hs1, hc, h1, hs, he, h2]
                  · simp only [he, if_false] at h
                    by_cases he2 : e = '}'
                    · simp only [he2, if_true, Option.some.injEq, Prod.mk.injEq] at h
                      obtain ⟨rfl, rfl⟩ := h
                      simp only [JSON.depthMembers] at hd
                      have h1 := hv _ _ _ hx (le_trans (le_max_left _ _) hd)
                      subst he2
                      simp only [hq, if_true, hk, hs1, hc, h1, hs]
                      rfl
                    · simp [he2] at h
            · simp [hc] at h
      · simp [hq] at h

/-- The nesting limit decides nothing but rejection: a value scanned under one
limit is scanned, with the same tree and the same rest, under every limit that
its depth is within. -/
theorem scanValue_within : ∀ (e d : Nat) (input rest : Text) (j : JSON Text),
    scanValue d input = some (j, rest) → j.depth ≤ e → scanValue e input = some (j, rest)
  | e, 0, input, rest, j, h, _ => by
    rw [scanValue] at h
    cases e with
    | zero => rw [scanValue]; exact h
    | succ e =>
      cases input with
      | nil => simp [scanScalar] at h
      | cons c r =>
        have hc : c ≠ '[' := by
          intro hc
          rw [hc, scanScalar_bracket] at h
          exact absurd h (by simp)
        have hc2 : c ≠ '{' := by
          intro hc
          rw [hc, scanScalar_brace] at h
          exact absurd h (by simp)
        simp only [scanValue, hc, hc2, if_false]
        exact h
  | e, d + 1, input, rest, j, h, hd => by
    cases input with
    | nil => simp [scanValue] at h
    | cons c r =>
      simp only [scanValue] at h
      by_cases hc : c = '['
      · simp only [hc, if_true] at h
        cases hs : skipSpace r with
        | nil => simp [hs] at h
        | cons c1 r1 =>
          simp only [hs] at h
          by_cases hc1 : c1 = ']'
          · simp only [hc1, if_true, Option.some.injEq, Prod.mk.injEq] at h
            obtain ⟨rfl, rfl⟩ := h
            cases e with
            | zero => simp [JSON.depth] at hd
            | succ e => simp only [scanValue, hc, if_true, hs, hc1]
          · simp only [hc1, if_false, List.length_cons] at h
            cases he : scanElems (fun t => scanValue d t) (r1.length + 1) (c1 :: r1) with
            | none => simp [he] at h
            | some q =>
              obtain ⟨xs, r2⟩ := q
              simp only [he, Option.some.injEq, Prod.mk.injEq] at h
              obtain ⟨rfl, rfl⟩ := h
              cases e with
              | zero => simp [JSON.depth] at hd
              | succ e =>
                simp only [JSON.depth, Nat.add_le_add_iff_right] at hd
                have h2 := scanElems_within (fun t => scanValue d t) (fun t => scanValue e t) e
                  (fun t v r ht hv => scanValue_within e d t r v ht hv) _ _ _ _ he hd
                simp only [scanValue, hc, if_true, hs, hc1, if_false, List.length_cons, h2]
      · simp only [hc, if_false] at h
        by_cases hc2 : c = '{'
        · simp only [hc2, if_true] at h
          cases hs : skipSpace r with
          | nil => simp [hs] at h
          | cons c1 r1 =>
            simp only [hs] at h
            by_cases hc1 : c1 = '}'
            · simp only [hc1, if_true, Option.some.injEq, Prod.mk.injEq] at h
              obtain ⟨rfl, rfl⟩ := h
              cases e with
              | zero => simp [JSON.depth] at hd
              | succ e =>
                have hne : ¬ ('{' = '[') := by decide
                simp only [scanValue, hc2, hne, if_true, if_false, hs, hc1]
            · simp only [hc1, if_false, List.length_cons] at h
              cases he : scanMembers (fun t => scanValue d t) (r1.length + 1) (c1 :: r1) with
              | none => simp [he] at h
              | some q =>
                obtain ⟨xs, r2⟩ := q
                simp only [he, Option.some.injEq, Prod.mk.injEq] at h
                obtain ⟨rfl, rfl⟩ := h
                cases e with
                | zero => simp [JSON.depth] at hd
                | succ e =>
                  simp only [JSON.depth, Nat.add_le_add_iff_right] at hd
                  have hne : ¬ ('{' = '[') := by decide
                  have h2 := scanMembers_within (fun t => scanValue d t)
                    (fun t => scanValue e t) e
                    (fun t v r ht hv => scanValue_within e d t r v ht hv) _ _ _ _ he hd
                  simp only [scanValue, hc2, hne, if_true, if_false, hs, hc1,
                    List.length_cons, h2]
        · simp only [hc2, if_false] at h
          cases e with
          | zero => rw [scanValue]; exact h
          | succ e =>
            simp only [scanValue, hc, hc2, if_false]
            exact h
termination_by e d => (e, d)

/-- A value nested deeper than the limit is not scanned under the limit. -/
theorem scanValue_beyond (e d : Nat) (input rest : Text) (j : JSON Text)
    (h : scanValue d input = some (j, rest)) (hd : e < j.depth) : scanValue e input = none := by
  cases hs : scanValue e input with
  | none => rfl
  | some p =>
    obtain ⟨j1, rest1⟩ := p
    have h1 := scanValue_depth e input rest1 j1 hs
    have h2 := scanValue_within d e input rest1 j1 hs
      (le_trans h1 (le_trans (Nat.le_of_lt hd) (scanValue_depth d input rest j h)))
    rw [h] at h2
    simp only [Option.some.injEq, Prod.mk.injEq] at h2
    rw [← h2.1] at h1
    omega
/-! ## The scanner consumes text: the fuel of the loops is never short -/

theorem skipSpace_length : ∀ (t : Text), (skipSpace t).length ≤ t.length
  | [] => le_refl _
  | c :: cs => by
    simp only [skipSpace]
    split
    · exact le_trans (skipSpace_length cs) (Nat.le_succ _)
    · exact le_refl _

theorem digits_length : ∀ (t : Text), (digits t).2.length ≤ t.length
  | [] => le_refl _
  | c :: cs => by
    simp only [digits]
    split
    · exact le_trans (digits_length cs) (Nat.le_succ _)
    · exact le_refl _

theorem scanExp_length (lit t l r : Text) (h : scanExp lit t = some (l, r)) :
    r.length ≤ t.length := by
  cases t with
  | nil =>
    simp only [scanExp, Option.some.injEq, Prod.mk.injEq] at h
    rw [← h.2]
  | cons c r0 =>
    simp only [scanExp] at h
    by_cases hc : c = 'e' ∨ c = 'E'
    · simp only [hc, if_true] at h
      cases r0 with
      | nil => simp at h
      | cons s r1 =>
        simp only at h
        by_cases hs : s = '+' ∨ s = '-'
        · simp only [hs, if_true] at h
          have hl := digits_length r1
          rcases hd : digits r1 with ⟨ds, r2⟩
          rw [hd] at h hl
          cases ds with
          | nil => simp at h
          | cons d ds =>
            simp only [Option.some.injEq, Prod.mk.injEq] at h
            rw [← h.2]
            simp only [List.length_cons]
            simp only at hl
            omega
        · simp only [hs, if_false] at h
          have hl := digits_length (s :: r1)
          rcases hd : digits (s :: r1) with ⟨ds, r2⟩
          rw [hd] at h hl
          cases ds with
          | nil => simp at h
          | cons d ds =>
            simp only [Option.some.injEq, Prod.mk.injEq] at h
            rw [← h.2]
            simp only [List.length_cons] at hl ⊢
            omega
    · simp only [hc, if_false, Option.some.injEq, Prod.mk.injEq] at h
      rw [← h.2]

theorem scanFrac_length (lit t l r : Text) (h : scanFrac lit t = some (l, r)) :
    r.length ≤ t.length := by
  cases t with
  | nil =>
    simp only [scanFrac, Option.some.injEq, Prod.mk.injEq] at h
    rw [← h.2]
  | cons c r0 =>
    simp only [scanFrac] at h
    by_cases hc : c = '.'
    · simp only [hc, if_true] at h
      have hl := digits_length r0
      rcases hd : digits r0 with ⟨ds, r2⟩
      rw [hd] at h hl
      cases ds with
      | nil => simp at h
      | cons d ds =>
        have := scanExp_length _ _ _ _ h
        simp only [List.length_cons]
        simp only at hl
        omega
    · simp only [hc, if_false] at h
      exact scanExp_length _ _ _ _ h

theorem scanInt_length (lit t l r : Text) (h : scanInt lit t = some (l, r)) :
    r.length < t.length := by
  cases t with
  | nil => simp [scanInt] at h
  | cons c r0 =>
    simp only [scanInt] at h
    simp only [List.length_cons]
    by_cases hc : c = '0'
    · simp only [hc, if_true] at h
      have := scanFrac_length _ _ _ _ h
      omega
    · simp only [hc, if_false] at h
      by_cases hd : isDigit c = true
      · simp only [hd, if_true] at h
        have := scanFrac_length _ _ _ _ h
        have := digits_length r0
        omega
      · simp [hd] at h

theorem scanNumber_length (t l r : Text) (h : scanNumber t = some (l, r)) :
    r.length < t.length := by
  cases t with
  | nil => simp [scanNumber] at h
  | cons c r0 =>
    simp only [scanNumber] at h
    by_cases hc : c = '-'
    · simp only [hc, if_true] at h
      have := scanInt_length _ _ _ _ h
      simp only [List.length_cons]
      omega
    · simp only [hc, if_false] at h
      exact scanInt_length _ _ _ _ h

theorem prepend_some (c : Char) (x : Option (Text × Text)) (s r : Text)
    (h : prepend c x = some (s, r)) : ∃ s1, x = some (s1, r) := by
  cases x with
  | none => simp [prepend] at h
  | some p =>
    obtain ⟨s1, r1⟩ := p
    simp only [prepend, Option.some.injEq, Prod.mk.injEq] at h
    exact ⟨s1, by rw [h.2]⟩

theorem scanStringFrom_length : ∀ (t : Text) (skip : Nat) (s r : Text),
    scanStringFrom skip t = some (s, r) → r.length < t.length
  | [], skip, s, r, h => by
    cases skip <;> simp [scanStringFrom] at h
  | c :: rest, 0, s, r, h => by
    simp only [scanStringFrom] at h
    simp only [List.length_cons]
    by_cases hq : c = '"'
    · simp only [hq, if_true, Option.some.injEq, Prod.mk.injEq] at h
      rw [← h.2]
      exact Nat.lt_succ_self _
    · simp only [hq, if_false] at h
      cases hu : unquoteStep (c :: rest) with
      | none => simp [hu] at h
      | some p =>
        obtain ⟨ch, size⟩ := p
        simp only [hu] at h
        obtain ⟨s1, h1⟩ := prepend_some _ _ _ _ h
        have := scanStringFrom_length rest (size - 1) s1 r h1
        omega
  | c :: rest, skip + 1, s, r, h => by
    simp only [scanStringFrom] at h
    have := scanStringFrom_length rest skip s r h
    simp only [List.length_cons]
    omega

theorem scanScalar_length (t rest : Text) (j : JSON Text) (h : scanScalar t = some (j, rest)) :
    rest.length < t.length := by
  cases t with
  | nil => simp [scanScalar] at h
  | cons c r =>
    simp only [scanScalar] at h
    by_cases h1 : c = '"'
    · simp only [h1, if_true] at h
      cases hs : scanString r with
      | none => simp [hs] at h
      | some p =>
        obtain ⟨s, r1⟩ := p
        simp only [hs, Option.some.injEq, Prod.mk.injEq] at h
        have := scanStringFrom_length r 0 s r1 hs
        rw [← h.2]
        simp only [List.length_cons]
        omega
    · simp only [h1, if_false] at h
      by_cases h2 : c = 'n'
      · simp only [h2, if_true] at h
        split at h
        · simp only [Option.some.injEq, Prod.mk.injEq] at h
          rw [← h.2]
          simp only [List.length_cons]
          omega
        · simp at h
      · simp only [h2, if_false] at h
        by_cases h3 : c = 't'
        · simp only [h3, if_true] at h
          split at h
          · simp only [Option.some.injEq, Prod.mk.injEq] at h
            rw [← h.2]
            simp only [List.length_cons]
            omega
          · simp at h
        · simp only [h3, if_false] at h
          by_cases h4 : c = 'f'
          · simp only [h4, if_true] at h
            split at h
            · simp only [Option.some.injEq, Prod.mk.injEq] at h
              rw [← h.2]
              simp only [List.length_cons]
              omega
            · simp at h
          · simp only [h4, if_false] at h
            cases hn : scanNumber (c :: r) with
            | none => simp [hn] at h
            | some p =>
              obtain ⟨lit, r1⟩ := p
              simp only [hn, Option.some.injEq, Prod.mk.injEq] at h
              rw [← h.2]
              exact scanNumber_length _ _ _ hn

/-- Scanning the elements of an array consumes text. -/
theorem scanElems_length (scanV : Text → Option (JSON Text × Text))
    (hv : ∀ t v r, scanV t = some (v, r) → r.length < t.length) :
    ∀ (fuel : Nat) (input : Text) (xs : List (JSON Text)) (rest : Text),
      scanElems scanV fuel input = some (xs, rest) → rest.length < input.length
  | 0, _, _, _, h => by simp [scanElems] at h
  | fuel + 1, input, xs, rest, h => by
    simp only [scanElems] at h
    cases hx : scanV (skipSpace input) with
    | none => simp [hx] at h
    | some p =>
      obtain ⟨v, r1⟩ := p
      have h1 := hv _ _ _ hx
      have h2 := skipSpace_length input
      have h3 := skipSpace_length r1
      simp only [hx] at h
      cases hs : skipSpace r1 with
      | nil => simp [hs] at h
      | cons c r2 =>
        simp only [hs] at h
        rw [hs, List.length_cons] at h3
        by_cases hc : c = ','
        · simp only [hc, if_true] at h
          cases hr : scanElems scanV fuel r2 with
          | none => simp [hr] at h
          | some q =>
            obtain ⟨vs, r3⟩ := q
            simp only [hr, Option.some.injEq, Prod.mk.injEq] at h
            have := scanElems_length scanV hv fuel r2 vs r3 hr
            rw [← h.2]
            omega
        · simp only [hc, if_false] at h
          by_cases hc2 : c = ']'
          · simp only [hc2, if_true, Option.some.injEq, Prod.mk.injEq] at h
            rw [← h.2]
            omega
          · simp [hc2] at h

/-- Scanning the members of an object consumes text. -/
theorem scanMembers_length (scanV : Text → Option (JSON Text × Text))
    (hv : ∀ t v r, scanV t = some (v, r) → r.length < t.length) :
    ∀ (fuel : Nat) (input : Text) (ms : Members Text) (rest : Text),
      scanMembers scanV fuel input = some (ms, rest) → rest.length < input.length
  | 0, _, _, _, h => by simp [scanMembers] at h
  | fuel + 1, input, ms, rest, h => by
    simp only [scanMembers] at h
    have h0 := skipSpace_length input
    cases hs0 : skipSpace input with
    | nil => simp [hs0] at h
    | cons q r =>
      simp only [hs0] at h
      rw [hs0, List.length_cons] at h0
      by_cases hq : q = '"'
      · simp only [hq, if_true] at h
        cases hk : scanString r with
        | none => simp [hk] at h
        | some p0 =>
          obtain ⟨k, r1⟩ := p0
          have hk1 := scanStringFrom_length r 0 k r1 hk
          have hk2 := skipSpace_length r1
          simp only [hk] at h
          cases hs1 : skipSpace r1 with
          | nil => simp [hs1] at h
          | cons c r2 =>
            simp only [hs1] at h
            rw [hs1, List.length_cons] at hk2
            by_cases hc : c = ':'
            · simp only [hc, if_true] at h
              have h2 := skipSpace_length r2
              cases hx : scanV (skipSpace r2) with
              | none => simp [hx] at h
              | some p =>
                obtain ⟨v, r3⟩ := p
                have h3 := hv _ _ _ hx
                have h4 := skipSpace_length r3
                simp only [hx] at h
                cases hs : skipSpace r3 with
                | nil => simp [hs] at h
                | cons e r4 =>
                  simp only [hs] at h
                  rw [hs, List.length_cons] at h4
                  by_cases he : e = ','
                  · simp only [he, if_true] at h
                    cases hr : scanMembers scanV fuel r4 with
                    | none => simp [hr] at h
                    | some q1 =>
                      obtain ⟨vs, r5⟩ := q1
                      simp only [hr, Option.some.injEq, Prod.mk.injEq] at h
                      have := scanMembers_length scanV hv fuel r4 vs r5 hr
                      rw [← h.2]
                      omega
                  · simp only [he, if_false] at h
                    by_cases he2 : e = '}'
                    · simp only [he2, if_true, Option.some.injEq, Prod.mk.injEq] at h
                      rw [← h.2]
                      omega
                    · simp [he2] at h
            · simp [hc] at h
      · simp [hq] at h

/-- Scanning a value consumes text. -/
theorem scanValue_length : ∀ (d : Nat) (input rest : Text) (j : JSON Text),
    scanValue d input = some (j, rest) → rest.length < input.length
  | 0, input, rest, j, h => by
    rw [scanValue] at h
    exact scanScalar_length input rest j h
  | d + 1, input, rest, j, h => by
    have ih : ∀ t v r, (fun t => scanValue d t) t = some (v, r) → r.length < t.length :=
      fun t v r ht => scanValue_length d t r v ht
    cases input with
    | nil => simp [scanValue] at h
    | cons c r =>
      simp only [scanValue] at h
      have h0 := skipSpace_length r
      by_cases hc : c = '['
      · simp only [hc, if_true] at h
        cases hs : skipSpace r with
        | nil => simp [hs] at h
        | cons c1 r1 =>
          simp only [hs] at h
          rw [hs, List.length_cons] at h0
          by_cases hc1 : c1 = ']'
          · simp only [hc1, if_true, Option.some.injEq, Prod.mk.injEq] at h
            rw [← h.2]
            simp only [List.length_cons]
            omega
          · simp only [hc1, if_false, List.length_cons] at h
            cases he : scanElems (fun t => scanValue d t) (r1.length + 1) (c1 :: r1) with
            | none => simp [he] at h
            | some q =>
              obtain ⟨xs, r2⟩ := q
              simp only [he, Option.some.injEq, Prod.mk.injEq] at h
              have := scanElems_length _ ih _ _ _ _ he
              rw [← h.2]
              simp only [List.length_cons] at this ⊢
              omega
      · simp only [hc, if_false] at h
        by_cases hc2 : c = '{'
        · simp only [hc2, if_true] at h
          cases hs : skipSpace r with
          | nil => simp [hs] at h
          | cons c1 r1 =>
            simp only [hs] at h
            rw [hs, List.length_cons] at h0
            by_cases hc1 : c1 = '}'
            · simp only [hc1, if_true, Option.some.injEq, Prod.mk.injEq] at h
              rw [← h.2]
              simp only [List.length_cons]
              omega
            · simp only [hc1, if_false, List.length_cons] at h
              cases he : scanMembers (fun t => scanValue d t) (r1.length + 1) (c1 :: r1) with
              | none => simp [he] at h
              | some q =>
                obtain ⟨xs, r2⟩ := q
                simp only [he, Option.some.injEq, Prod.mk.injEq] at h
                have := scanMembers_length _ ih _ _ _ _ he
                rw [← h.2]
                simp only [List.length_cons] at this ⊢
                omega
        · simp only [hc2, if_false] at h
          exact scanScalar_length _ rest j h

/-- The fuel of the loop over the elements is never short: with at least as
much fuel as there is text, more fuel gives the same result. -/
theorem scanElems_fuel (scanV : Text → Option (JSON Text × Text))
    (hv : ∀ t v r, scanV t = some (v, r) → r.length < t.length) :
    ∀ (fuel : Nat) (input : Text) (more : Nat), input.length ≤ fuel →
      scanElems scanV (fuel + more) input = scanElems scanV fuel input
  | 0, input, more, h => by
    have e : input = [] := List.eq_nil_of_length_eq_zero (Nat.le_zero.1 h)
    subst e
    cases more with
    | zero => rfl
    | succ m =>
      simp only [Nat.zero_add, scanElems, skipSpace]
      cases hx : scanV [] with
      | none => rfl
      | some p => exact absurd (hv _ _ _ hx) (Nat.not_lt_zero _)
  | fuel + 1, input, more, h => by
    rw [show fuel + 1 + more = (fuel + more) + 1 by omega]
    simp only [scanElems]
    cases hx : scanV (skipSpace input) with
    | none => rfl
    | some p =>
      obtain ⟨v, r1⟩ := p
      have h1 := hv _ _ _ hx
      have h2 := skipSpace_length input
      have h3 := skipSpace_length r1
      simp only
      cases hs : skipSpace r1 with
      | nil => rfl
      | cons c r2 =>
        rw [hs, List.length_cons] at h3
        simp only
        rw [scanElems_fuel scanV hv fuel r2 more (by omega)]

/-- The fuel of the loop over the members is never short. -/
theorem scanMembers_fuel (scanV : Text → Option (JSON Text × Text))
    (hv : ∀ t v r, scanV t = some (v, r) → r.length < t.length) :
    ∀ (fuel : Nat) (input : Text) (more : Nat), input.length ≤ fuel →
      scanMembers scanV (fuel + more) input = scanMembers scanV fuel input
  | 0, input, more, h => by
    have e : input = [] := List.eq_nil_of_length_eq_zero (Nat.le_zero.1 h)
    subst e
    cases more with
    | zero => rfl
    | succ m => simp [scanMembers, skipSpace]
  | fuel + 1, input, more, h => by
    rw [show fuel + 1 + more = (fuel + more) + 1 by omega]
    simp only [scanMembers]
    have h0 := skipSpace_length input
    cases hs0 : skipSpace input with
    | nil => rfl
    | cons q r =>
      rw [hs0, List.length_cons] at h0
      simp only
      by_cases hq : q = '"'
      · simp only [hq, if_true]
        cases hk : scanString r with
        | none => rfl
        | some p0 =>
          obtain ⟨k, r1⟩ := p0
          have hk1 := scanStringFrom_length r 0 k r1 hk
          have hk2 := skipSpace_length r1
          simp only
          cases hs1 : skipSpace r1 with
          | nil => rfl
          | cons c r2 =>
            rw [hs1, List.length_cons] at hk2
            simp only
            by_cases hc : c = ':'
            · simp only [hc, if_true]
              have h2 := skipSpace_length r2
              cases hx : scanV (skipSpace r2) with
              | none => rfl
              | some p =>
                obtain ⟨v, r3⟩ := p
                have h3 := hv _ _ _ hx
                have h4 := skipSpace_length r3
                simp only
                cases hs : skipSpace r3 with
                | nil => rfl
                | cons e r4 =>
                  rw [hs, List.length_cons] at h4
                  simp only
                  rw [scanMembers_fuel scanV hv fuel r4 more (by omega)]
            · simp only [hc, if_false]
      · simp only [hq, if_false]

/-- The loops of `scanValue` get the length of the text as fuel: any larger
amount gives the same result. -/
theorem scanValue_fuel (d : Nat) (input : Text) (more : Nat) :
    scanElems (fun t => scanValue d t) (input.length + more) input =
      scanElems (fun t => scanValue d t) input.length input ∧
    scanMembers (fun t => scanValue d t) (input.length + more) input =
      scanMembers (fun t => scanValue d t) input.length input :=
  ⟨scanElems_fuel _ (fun t v r h => scanValue_length d t r v h) _ _ _ (le_refl _),
    scanMembers_fuel _ (fun t v r h => scanValue_length d t r v h) _ _ _ (le_refl _)⟩

/-! ## The hooks and the queries -/

theorem digitConv_roundTrips : digitConv.RoundTrips := by
  intro f lit h
  simp only [digitConv, Option.some.injEq] at h
  subst h
  revert f
  decide

theorem BeforeSave_ok {F : Type} (sc : Strconv F) (item saved : RequestItem F)
    (h : BeforeSave sc item = .ok saved) :
    Marshal sc item.Data = some saved.RawData ∧ saved = { item with RawData := saved.RawData } := by
  simp only [BeforeSave] at h
  cases hm : Marshal sc item.Data with
  | none => simp [hm] at h
  | some raw =>
    simp only [hm, Except.ok.injEq] at h
    subst h
    exact ⟨rfl, rfl⟩

theorem AfterFind_ok {F : Type} (sc : Strconv F) (item found : RequestItem F)
    (h : AfterFind sc item = .ok found) :
    found.ID = item.ID ∧ found.Path = item.Path ∧ found.RawData = item.RawData ∧
      Unmarshal sc item.RawData item.Data = some found.Data := by
  simp only [AfterFind] at h
  cases hm : Unmarshal sc item.RawData item.Data with
  | none => simp [hm] at h
  | some data =>
    simp only [hm, Except.ok.injEq] at h
    subst h
    exact ⟨rfl, rfl, rfl, rfl⟩

theorem AfterFind_error {F : Type} (sc : Strconv F) (item : RequestItem F)
    (h : Unmarshal sc item.RawData item.Data = none) : AfterFind sc item = .error .decoding := by
  simp [AfterFind, h]

theorem Unmarshal_invalid {F : Type} (sc : Strconv F) (data : Text) (dst : Option (Members F))
    (h : Valid data = false) : Unmarshal sc data dst = none := by
  cases hc : checkValid data with
  | none => simp [Unmarshal, hc]
  | some j => simp [Valid, hc] at h

/-- The query fails when the hook fails on one of the records. -/
theorem afterQuery_error {F : Type} (sc : Strconv F) : ∀ (items : List (RequestItem F))
    (item : RequestItem F) (e : Error), item ∈ items → AfterFind sc item = .error e →
    ∃ e1, afterQuery sc items = .error e1
  | [], _, _, h, _ => by simp at h
  | x :: xs, item, e, h, he => by
    simp only [afterQuery]
    rcases List.mem_cons.1 h with h | h
    · subst h
      rw [he]
      exact ⟨e, rfl⟩
    · obtain ⟨e1, h1⟩ := afterQuery_error sc xs item e h he
      rw [h1]
      cases AfterFind sc x with
      | error e2 => exact ⟨e2, rfl⟩
      | ok f => exact ⟨e1, rfl⟩

/-- The query succeeds when the hook succeeds on every record: the result is
the list of the records the hook returned, in order. -/
theorem afterQuery_ok {F : Type} (sc : Strconv F) : ∀ (items founds : List (RequestItem F)),
    List.Forall₂ (fun item found => AfterFind sc item = .ok found) items founds →
    afterQuery sc items = .ok founds
  | [], _, h => by cases h; rfl
  | x :: xs, _, h => by
    cases h with
    | cons h1 h2 =>
      simp only [afterQuery, h1, afterQuery_ok sc xs _ h2]

theorem afterQuery_inv {F : Type} (sc : Strconv F) : ∀ (items founds : List (RequestItem F)),
    afterQuery sc items = .ok founds →
    List.Forall₂ (fun item found => AfterFind sc item = .ok found) items founds
  | [], founds, h => by
    simp only [afterQuery, Except.ok.injEq] at h
    subst h
    exact List.Forall₂.nil
  | x :: xs, founds, h => by
    simp only [afterQuery] at h
    cases hx : AfterFind sc x with
    | error e => simp [hx] at h
    | ok f =>
      cases hxs : afterQuery sc xs with
      | error e => simp [hx, hxs] at h
      | ok fs =>
        simp only [hx, hxs, Except.ok.injEq] at h
        subst h
        exact List.Forall₂.cons hx (afterQuery_inv sc xs fs hxs)

theorem afterQuery_mem_right {F : Type} (sc : Strconv F) : ∀ (items founds : List (RequestItem F)),
    afterQuery sc items = .ok founds → ∀ found ∈ founds,
    ∃ item ∈ items, AfterFind sc item = .ok found
  | [], founds, h, found, hf => by
    simp only [afterQuery, Except.ok.injEq] at h
    subst h
    simp at hf
  | x :: xs, founds, h, found, hf => by
    simp only [afterQuery] at h
    cases hx : AfterFind sc x with
    | error e => simp [hx] at h
    | ok f =>
      cases hxs : afterQuery sc xs with
      | error e => simp [hx, hxs] at h
      | ok fs =>
        simp only [hx, hxs, Except.ok.injEq] at h
        subst h
        rcases List.mem_cons.1 hf with e | e
        · exact ⟨x, List.mem_cons_self _ _, by rw [hx, e]⟩
        · obtain ⟨item, hi, hfi⟩ := afterQuery_mem_right sc xs fs hxs found e
          exact ⟨item, List.mem_cons_of_mem _ hi, hfi⟩

/-- Every record of a successful query comes from a row with the queried path. -/
theorem Find_path {F : Type} (sc : Strconv F) (db : DB) (dbFails : Bool) (path : String)
    (items : List (RequestItem F)) (h : Find sc db dbFails path = .ok items) :
    ∀ item ∈ items, item.Path = path := by
  simp only [Find] at h
  cases dbFails with
  | true => simp at h
  | false =>
    simp only [Bool.false_eq_true, if_false] at h
    intro item hitem
    obtain ⟨src, hsrc, hf⟩ := afterQuery_mem_right sc _ _ h item hitem
    obtain ⟨row, hrow, rfl⟩ := List.mem_map.1 hsrc
    have hp := (List.mem_filter.1 hrow).2
    rw [(AfterFind_ok sc _ _ hf).2.1]
    simpa [scanRow] using hp

/-- Every record of a successful query is the record of a stored row with the
queried path: same identity, path and stored text. -/
theorem Find_rows {F : Type} (sc : Strconv F) (db : DB) (dbFails : Bool) (path : String)
    (items : List (RequestItem F)) (h : Find sc db dbFails path = .ok items) :
    ∀ item ∈ items, ∃ row ∈ db.rows, row.Path = path ∧ item.ID = row.ID ∧
      item.Path = row.Path ∧ item.RawData = row.RawData := by
  simp only [Find] at h
  cases dbFails with
  | true => simp at h
  | false =>
    simp only [Bool.false_eq_true, if_false] at h
    intro item hitem
    obtain ⟨src, hsrc, hf⟩ := afterQuery_mem_right sc _ _ h item hitem
    obtain ⟨row, hrow, rfl⟩ := List.mem_map.1 hsrc
    obtain ⟨hrow1, hrow2⟩ := List.mem_filter.1 hrow
    obtain ⟨h1, h2, h3, _⟩ := AfterFind_ok sc _ _ hf
    exact ⟨row, hrow1, by simpa using hrow2, h1, h2, h3⟩

theorem le_maxID : ∀ (rows : List Row) (r : Row), r ∈ rows → r.ID ≤ maxID rows
  | [], _, h => by simp at h
  | x :: xs, r, h => by
    simp only [maxID]
    rcases List.mem_cons.1 h with e | e
    · rw [e]; exact le_max_left _ _
    · exact le_trans (le_maxID xs r e) (le_max_right _ _)

theorem lt_nextID (db : DB) : db.seq < nextID db ∧ ∀ r ∈ db.rows, r.ID < nextID db := by
  refine ⟨?_, ?_⟩
  · simp only [nextID]
    exact Nat.lt_succ_of_le (le_max_left _ _)
  · intro r hr
    simp only [nextID]
    exact Nat.lt_succ_of_le (le_trans (le_maxID _ r hr) (le_max_right _ _))

/-! ## The handlers -/

/-- What a successful create request did. -/
theorem createHandler_ok {F : Type} (sc : Strconv F) (path : String) (db db1 : DB)
    (dbFails : Bool) (body : Text) (item : RequestItem F)
    (h : createHandler sc path db dbFails body = ({ status := StatusOK, body := .item item }, db1)) :
    ∃ v raw, Decode sc body none = some v ∧ Marshal sc v = some raw ∧ dbFails = false ∧
      item = { ID := nextID db, Path := path, Data := v, RawData := raw } ∧
      db1 = { rows := db.rows ++ [{ ID := nextID db, Path := path, RawData := raw }],
              seq := nextID db } := by
  simp only [createHandler, ShouldBindJSON] at h
  cases hd : Decode sc body none with
  | none => simp [hd, StatusOK, StatusBadRequest] at h
  | some v =>
    simp only [hd, Create, BeforeSave] at h
    cases hm : Marshal sc v with
    | none => simp [hm, StatusOK, StatusInternalServerError] at h
    | some raw =>
      simp only [hm] at h
      cases dbFails with
      | true => simp [StatusOK, StatusInternalServerError] at h
      | false =>
        simp only [Bool.false_eq_true, if_false, Prod.mk.injEq, Response.mk.injEq,
          Body.item.injEq, true_and] at h
        exact ⟨v, raw, rfl, hm, rfl, h.1.symm, h.2.symm⟩

/-- A create request answers 200, 400 or 500; on 400 and 500 the database is
unchanged and the body is an error. -/
theorem createHandler_cases {F : Type} (sc : Strconv F) (path : String) (db : DB)
    (dbFails : Bool) (body : Text) :
    (Decode sc body none = none ∧
      createHandler sc path db dbFails body =
        ({ status := StatusBadRequest, body := .error .decoding }, db)) ∨
    (∃ v e, Decode sc body none = some v ∧
      createHandler sc path db dbFails body =
        ({ status := StatusInternalServerError, body := .error e }, db)) ∨
    (∃ v raw, Decode sc body none = some v ∧ Marshal sc v = some raw ∧ dbFails = false ∧
      createHandler sc path db dbFails body =
        ({ status := StatusOK,
           body := .item { ID := nextID db, Path := path, Data := v, RawData := raw } },
         { rows := db.rows ++ [{ ID := nextID db, Path := path, RawData := raw }],
           seq := nextID db })) := by
  simp only [createHandler, ShouldBindJSON]
  cases hd : Decode sc body none with
  | none => exact Or.inl ⟨rfl, rfl⟩
  | some v =>
    right
    simp only [Create, BeforeSave]
    cases hm : Marshal sc v with
    | none => exact Or.inl ⟨v, .encoding, rfl, rfl⟩
    | some raw =>
      cases dbFails with
      | true => exact Or.inl ⟨v, .storage, rfl, rfl⟩
      | false => exact Or.inr ⟨v, raw, rfl, hm, rfl, rfl⟩

theorem listHandler_db {F : Type} (sc : Strconv F) (path : String) (db : DB) (dbFails : Bool) :
    (listHandler sc path db dbFails : Response F × DB).2 = db := by
  simp only [listHandler]
  cases Find sc db dbFails path <;> rfl

theorem listHandler_ok {F : Type} (sc : Strconv F) (path : String) (db db1 : DB) (dbFails : Bool)
    (items : List (RequestItem F))
    (h : listHandler sc path db dbFails = ({ status := StatusOK, body := .items items }, db1)) :
    Find sc db dbFails path = .ok items := by
  simp only [listHandler] at h
  cases hf : Find sc db dbFails path with
  | error e => simp [hf, StatusOK, StatusInternalServerError] at h
  | ok found =>
    simp only [hf, Prod.mk.injEq, Response.mk.injEq, Body.items.injEq, true_and] at h
    rw [h.1]

/-- A body from which no value can be read is answered 400 by the create
handler, with the database untouched. -/
theorem createHandler_unread {F : Type} (sc : Strconv F) (path : String) (db : DB)
    (dbFails : Bool) (body : Text) (hbad : readValue body = none) :
    createHandler sc path db dbFails body =
      ({ status := StatusBadRequest, body := .error .decoding }, db) := by
  have hd : Decode sc body none = none := by simp only [Decode, hbad]
  simp only [createHandler, ShouldBindJSON, hd]

/-! ## The claims -/

theorem afterQuery_all_ok {F : Type} (sc : Strconv F) : ∀ (items : List (RequestItem F)),
    (∀ item ∈ items, ∃ found, AfterFind sc item = .ok found) →
    ∃ founds, afterQuery sc items = .ok founds ∧
      ∀ item ∈ items, ∀ found, AfterFind sc item = .ok found → found ∈ founds
  | [], _ => ⟨[], rfl, fun _ h => absurd h (List.not_mem_nil _)⟩
  | x :: xs, h => by
    obtain ⟨f, hf⟩ := h x (List.mem_cons_self _ _)
    obtain ⟨fs, hfs, hmem⟩ := afterQuery_all_ok sc xs (fun i hi => h i (List.mem_cons_of_mem _ hi))
    refine ⟨f :: fs, by simp only [afterQuery, hf, hfs], ?_⟩
    intro item hitem found hfound
    rcases List.mem_cons.1 hitem with e | e
    · subst e
      rw [hf] at hfound
      cases hfound
      exact List.mem_cons_self _ _
    · exact List.mem_cons_of_mem _ (hmem item e found hfound)

/-- C1. Codec round trip: when `BeforeSave` succeeds on a record with a
representable payload, `RawData` is the encoding of the payload, and
`AfterFind` succeeds on the record scanned from the stored columns, and on the
saved record itself, with a `Data` equal to the payload. -/
theorem codec_round_trip {F : Type} (sc : Strconv F) (hsc : sc.RoundTrips)
    (item saved : RequestItem F) (hrep : Representable item.Data)
    (hsave : BeforeSave sc item = .ok saved) :
    Marshal sc item.Data = some saved.RawData ∧ saved.Data = item.Data ∧
    AfterFind sc (scanRow { ID := saved.ID, Path := saved.Path, RawData := saved.RawData }) =
      .ok saved ∧
    AfterFind sc saved = .ok saved := by
  obtain ⟨hm, hs⟩ := BeforeSave_ok sc item saved hsave
  obtain ⟨h1, h2⟩ := Unmarshal_Marshal sc hsc item.Data saved.RawData hrep hm
  have hd : saved.Data = item.Data := by rw [hs]
  refine ⟨hm, hd, ?_, ?_⟩
  · simp only [AfterFind, scanRow, h1]
    rw [← hd]
  · simp only [AfterFind]
    rw [hd, h2, ← hd]

/-- C1 at the payload `{"name":"bolt"}`. -/
theorem codec_round_trip_witness :
    Representable boltData ∧
    BeforeSave digitConv { ID := 1, Path := widgets, Data := boltData, RawData := [] } =
      .ok boltItem ∧
    AfterFind digitConv (scanRow { ID := 1, Path := widgets, RawData := boltBody }) =
      .ok boltItem :=
  ⟨⟨rfl, by decide⟩, rfl,
    (codec_round_trip digitConv digitConv_roundTrips
      { ID := 1, Path := widgets, Data := boltData, RawData := [] } boltItem
      ⟨rfl, by decide⟩ rfl).2.2.1⟩

/-- C2, as stated, fails: on a database that already holds a row for the path
whose text is not JSON, the create request succeeds and the list request that
follows answers 500. -/
theorem create_then_list_counterexample :
    (createHandler digitConv widgets corruptDB false boltBody).1.status = StatusOK ∧
    (listHandler digitConv widgets
      (createHandler digitConv widgets corruptDB false boltBody).2 false).1.status =
      StatusInternalServerError := by
  decide

/-- The rows stored for the path all decode. -/
theorem serve_decodes {F : Type} (sc : Strconv F) (hsc : sc.RoundTrips) (path : String)
    (db : DB) (request : Request)
    (hgood : ∀ r ∈ db.rows, r.Path = path → Unmarshal sc r.RawData none ≠ none) :
    (∀ r ∈ (serve sc db request).rows, r.Path = path → Unmarshal sc r.RawData none ≠ none) ∧
    db.rows <+: (serve sc db request).rows := by
  cases request with
  | get p f =>
    simp only [serve, listHandler_db]
    exact ⟨hgood, List.prefix_refl _⟩
  | post p body f =>
    simp only [serve]
    rcases createHandler_cases sc p db f body with h | h | h
    · rw [h.2]
      exact ⟨hgood, List.prefix_refl _⟩
    · obtain ⟨v, e, _, h2⟩ := h
      rw [h2]
      exact ⟨hgood, List.prefix_refl _⟩
    · obtain ⟨v, raw, hd, hm, _, h2⟩ := h
      rw [h2]
      refine ⟨?_, List.prefix_append _ _⟩
      intro r hr hp
      rcases List.mem_append.1 hr with hold | hnew
      · exact hgood r hold hp
      · rw [List.mem_singleton.1 hnew]
        rw [(Unmarshal_Marshal sc hsc v raw (Decode_representable sc body v hd) hm).1]
        simp

theorem serveAll_decodes {F : Type} (sc : Strconv F) (hsc : sc.RoundTrips) (path : String) :
    ∀ (requests : List Request) (db : DB),
      (∀ r ∈ db.rows, r.Path = path → Unmarshal sc r.RawData none ≠ none) →
      (∀ r ∈ (serveAll sc db requests).rows, r.Path = path →
        Unmarshal sc r.RawData none ≠ none) ∧
      db.rows <+: (serveAll sc db requests).rows
  | [], _, h => ⟨h, List.prefix_refl _⟩
  | request :: requests, db, h => by
    obtain ⟨h1, h2⟩ := serve_decodes sc hsc path db request h
    obtain ⟨h3, h4⟩ := serveAll_decodes sc hsc path requests (serve sc db request) h1
    exact ⟨h3, List.IsPrefix.trans h2 h4⟩

/-- A list request on a database whose rows for the path all decode answers
200 with the records of those rows. -/
theorem listHandler_decodes {F : Type} (sc : Strconv F) (path : String) (db : DB)
    (hgood : ∀ r ∈ db.rows, r.Path = path → Unmarshal sc r.RawData none ≠ none) :
    ∃ items, listHandler sc path db false = ({ status := StatusOK, body := .items items }, db) ∧
      ∀ r ∈ db.rows, r.Path = path → ∀ data, Unmarshal sc r.RawData none = some data →
        ({ ID := r.ID, Path := r.Path, Data := data, RawData := r.RawData } : RequestItem F) ∈
          items := by
  have hall : ∀ it ∈ (db.rows.filter (fun r : Row => decide (r.Path = path))).map
      (scanRow (F := F)), ∃ found, AfterFind sc it = .ok found := by
    intro it hit
    obtain ⟨row, hrow, rfl⟩ := List.mem_map.1 hit
    obtain ⟨hrow1, hrow2⟩ := List.mem_filter.1 hrow
    have hne := hgood row hrow1 (by simpa using hrow2)
    cases hx : Unmarshal sc row.RawData none with
    | none => exact absurd hx hne
    | some d =>
      refine ⟨{ ID := row.ID, Path := row.Path, Data := d, RawData := row.RawData }, ?_⟩
      simp only [AfterFind, scanRow, hx]
  obtain ⟨founds, hf, hmem⟩ := afterQuery_all_ok sc _ hall
  refine ⟨founds, by simp only [listHandler, Find, Bool.false_eq_true, if_false, hf], ?_⟩
  intro r hr hp data hdata
  refine hmem (scanRow r) ?_ _ ?_
  · exact List.mem_map.2 ⟨r, List.mem_filter.2 ⟨hr, by simpa using hp⟩, rfl⟩
  · simp only [AfterFind, scanRow, hdata]

/-- C2, amended. Create-then-list: when every row stored for the path decodes
and the create handler bound to the path succeeds, the body was bound to the
payload of the record in the response, and a list request for the path that
follows, at once or after any sequence of further requests, answers 200 (the
storage engine not failing) with a listing that contains that record: same
identity, path, payload and stored text. -/
theorem create_then_list {F : Type} (sc : Strconv F) (hsc : sc.RoundTrips) (path : String)
    (db db1 : DB) (dbFails : Bool) (body : Text) (item : RequestItem F)
    (hgood : ∀ r ∈ db.rows, r.Path = path → Unmarshal sc r.RawData none ≠ none)
    (hcreate : createHandler sc path db dbFails body =
      ({ status := StatusOK, body := .item item }, db1)) :
    ShouldBindJSON sc body = .ok item.Data ∧ item.Path = path ∧
    ∀ requests, ∃ items,
      listHandler sc path (serveAll sc db1 requests) false =
        ({ status := StatusOK, body := .items items }, serveAll sc db1 requests) ∧
      item ∈ items := by
  obtain ⟨v, raw, hd, hm, _, hi, hdb⟩ := createHandler_ok sc path db db1 dbFails body item hcreate
  have hrep := Decode_representable sc body v hd
  obtain ⟨hu, _⟩ := Unmarshal_Marshal sc hsc v raw hrep hm
  subst hi hdb
  refine ⟨by simp [ShouldBindJSON, hd], rfl, ?_⟩
  intro requests
  have hgood1 : ∀ r ∈ db.rows ++ [({ ID := nextID db, Path := path, RawData := raw } : Row)],
      r.Path = path → Unmarshal sc r.RawData none ≠ none := by
    intro r hr hp
    rcases List.mem_append.1 hr with hold | hnew
    · exact hgood r hold hp
    · rw [List.mem_singleton.1 hnew, hu]
      simp
  obtain ⟨h1, h2⟩ := serveAll_decodes sc hsc path requests
    { rows := db.rows ++ [{ ID := nextID db, Path := path, RawData := raw }], seq := nextID db }
    hgood1
  obtain ⟨items, hl, hmem⟩ := listHandler_decodes sc path _ h1
  refine ⟨items, hl, ?_⟩
  exact hmem { ID := nextID db, Path := path, RawData := raw }
    (h2.subset (List.mem_append.2 (Or.inr (List.mem_singleton.2 rfl)))) rfl v hu

/-- C2 at `POST /widgets` with `{"name":"bolt"}` on the empty database: the
list request that follows returns exactly the created record. -/
theorem create_then_list_witness :
    createHandler digitConv widgets emptyDB false boltBody =
      ({ status := StatusOK, body := .item boltItem }, boltDB) ∧
    listHandler digitConv widgets boltDB false =
      ({ status := StatusOK, body := .items [boltItem] }, boltDB) ∧
    ∃ items, listHandler digitConv widgets (serveAll digitConv boltDB []) false =
        ({ status := StatusOK, body := .items items }, serveAll digitConv boltDB []) ∧
      boltItem ∈ items :=
  ⟨rfl, rfl,
    (create_then_list digitConv digitConv_roundTrips widgets emptyDB boltDB false boltBody boltItem
      (fun _ h => absurd h (List.not_mem_nil _)) rfl).2.2 []⟩

/-- C4, as stated, fails: the body `["bolt"]` is well-formed JSON and the
create handler answers 400. -/
theorem body_acceptance_counterexample :
    Valid arrayBody = true ∧
    createHandler digitConv widgets emptyDB false arrayBody =
      ({ status := StatusBadRequest, body := .error .decoding }, emptyDB) :=
  ⟨by decide, rfl⟩

/-- C4, amended. Let the request body be one well-formed JSON value with
optional white space around it, of tree `j`, however deeply nested.  The
decoder's nesting limit is 10000 arrays and objects.  When `j` is nested deeper
than the limit, the create handler answers 400 and the database is unchanged.
When `j` is within the limit: if `j` decodes into a string-keyed map (it is
`null`, or an object whose number literals convert), the create handler does
not answer 400, and when the store write succeeds it answers 200 with a record
whose payload is the decoded value, the nil map for `null` and the map of its
members for an object; if `j` is an array, a string, a number or a boolean, or
an object with a number literal out of range, the create handler answers 400
and the database is unchanged.  In particular the compact text of every object
within the limit whose members decode is accepted, and a body that opens an
object holding arrays nested to the limit is answered 400 whatever follows. -/
theorem body_acceptance {F : Type} (sc : Strconv F) (path : String) (db : DB) (dbFails : Bool)
    (body : Text) (d : Nat) (j : JSON Text) (rest : Text)
    (hscan : scanValue d (skipSpace body) = some (j, rest)) (hend : skipSpace rest = []) :
    maxNestingDepth = 10000 ∧
    (maxNestingDepth < j.depth →
      createHandler sc path db dbFails body =
        ({ status := StatusBadRequest, body := .error .decoding }, db)) ∧
    (j.depth ≤ maxNestingDepth →
      checkValid body = some j ∧
      (∀ v, unmarshalMap sc j none = some v →
        (createHandler sc path db dbFails body).1.status ≠ StatusBadRequest ∧
        ∀ item db1,
          Create sc db dbFails { ID := 0, Path := path, Data := v, RawData := [] } =
            (.ok item, db1) →
          createHandler sc path db dbFails body =
            ({ status := StatusOK, body := .item item }, db1) ∧
            item.Data = v ∧ item.Path = path) ∧
      (j.isMapOrNull = false →
        createHandler sc path db dbFails body =
          ({ status := StatusBadRequest, body := .error .decoding }, db)) ∧
      (∀ ms, j = .object ms → objectInterface sc ms = none →
        createHandler sc path db dbFails body =
          ({ status := StatusBadRequest, body := .error .decoding }, db))) ∧
    (j = .null → unmarshalMap sc j none = some none) ∧
    (∀ ms kvs, j = .object ms → objectInterface sc ms = some kvs →
      unmarshalMap sc j none = some (some (setKeys kvs []))) ∧
    (∀ ms kvs, (JSON.object ms).numbersOK = true → (JSON.object ms).depth ≤ maxNestingDepth →
      objectInterface sc ms = some kvs →
      checkValid (render (.object ms)) = some (.object ms) ∧
      (createHandler sc path db dbFails (render (.object ms))).1.status ≠ StatusBadRequest ∧
      ∀ item db1,
        Create sc db dbFails
          { ID := 0, Path := path, Data := some (setKeys kvs []), RawData := [] } = (.ok item, db1) →
        createHandler sc path db dbFails (render (.object ms)) =
          ({ status := StatusOK, body := .item item }, db1)) ∧
    (∀ tail, createHandler sc path db dbFails (deepBody ++ tail) =
      ({ status := StatusBadRequest, body := .error .decoding }, db)) := by
  have key : ∀ (body : Text) (j : JSON Text), readValue body = some j →
      ∀ v, unmarshalMap sc j none = some v →
      (createHandler sc path db dbFails body).1.status ≠ StatusBadRequest ∧
      ∀ item db1,
        Create sc db dbFails { ID := 0, Path := path, Data := v, RawData := [] } = (.ok item, db1) →
        createHandler sc path db dbFails body = ({ status := StatusOK, body := .item item }, db1) ∧
          item.Data = v ∧ item.Path = path := by
    intro body j hread v hv
    have hd : Decode sc body none = some v := by simp only [Decode, hread, hv]
    rcases createHandler_cases sc path db dbFails body with h | h | h
    · rw [hd] at h; exact absurd h.1 (by simp)
    · obtain ⟨v1, e, h1, h2⟩ := h
      rw [hd, Option.some.injEq] at h1
      subst h1
      refine ⟨by rw [h2]; simp [StatusInternalServerError, StatusBadRequest], ?_⟩
      intro item db1 hc
      exfalso
      simp only [createHandler, ShouldBindJSON, hd, hc] at h2
      simp [StatusOK, StatusInternalServerError] at h2
    · obtain ⟨v1, raw, h1, h2, h3, h4⟩ := h
      rw [hd, Option.some.injEq] at h1
      subst h1
      refine ⟨by rw [h4]; simp [StatusOK, StatusBadRequest], ?_⟩
      intro item db1 hc
      simp only [createHandler, ShouldBindJSON, hd, hc]
      simp only [Create, BeforeSave, h2, h3, Bool.false_eq_true, if_false, Prod.mk.injEq,
        Except.ok.injEq] at hc
      rw [← hc.1]
      simp
  refine ⟨rfl, ?_, ?_, ?_, ?_, ?_, ?_⟩
  · intro hdeep
    exact createHandler_unread sc path db dbFails body
      (readValue_none body _ rfl (scanValue_beyond _ d _ rest j hscan hdeep))
  · intro hdepth
    have hvalid : checkValid body = some j :=
      checkValid_some body _ j rest rfl (scanValue_within _ d _ rest j hscan hdepth) hend
    have hread := readValue_of_checkValid body j hvalid
    refine ⟨hvalid, key body j hread, ?_, ?_⟩
    · intro hj
      have hd : Decode sc body none = none := by
        simp only [Decode, hread]
        cases j <;> simp [JSON.isMapOrNull] at hj <;> rfl
      simp only [createHandler, ShouldBindJSON, hd]
    · intro ms e hk
      subst e
      have hd : Decode sc body none = none := by
        simp only [Decode, hread, unmarshalMap, hk]
      simp only [createHandler, ShouldBindJSON, hd]
  · intro e
    subst e
    rfl
  · intro ms kvs e hk
    subst e
    simp [unmarshalMap, hk]
  · intro ms kvs hok hdepth hk
    have hc := checkValid_render (.object ms) hdepth hok
    have hu : unmarshalMap sc (.object ms) none = some (some (setKeys kvs [])) := by
      simp [unmarshalMap, hk]
    obtain ⟨h1, h2⟩ := key _ _ (readValue_of_checkValid _ _ hc) _ hu
    exact ⟨hc, h1, fun item db1 hcr => (h2 item db1 hcr).1⟩
  · intro tail
    exact createHandler_unread sc path db dbFails (deepBody ++ tail) (readValue_deepBody tail)

/-- C4 at the body `{"name":"bolt"}`. -/
theorem body_acceptance_witness :
    scanValue 1 (skipSpace boltBody) =
      some (.object [("name".toList, .string "bolt".toList)], []) ∧
    skipSpace [] = [] ∧
    (createHandler digitConv widgets emptyDB false boltBody).1.status ≠ StatusBadRequest :=
  ⟨rfl, rfl,
    (((body_acceptance digitConv widgets emptyDB false boltBody 1
      (.object [("name".toList, .string "bolt".toList)]) [] rfl rfl).2.2.1
        (by decide)).2.1 boltData rfl).1⟩

/-- C5. The body `{}x` is not well-formed JSON, and `json.Unmarshal`, with
which `AfterFind` decodes a stored text, rejects it; the create handler,
decoding with `Decoder.Decode`, reads the first value only: it binds the empty
object, answers 200 and stores a record. -/
theorem malformed_body_accepted :
    Valid trailingBody = false ∧
    Unmarshal digitConv trailingBody none = none ∧
    readValue trailingBody = some (.object []) ∧
    createHandler digitConv widgets emptyDB false trailingBody =
      ({ status := StatusOK,
         body := .item { ID := 1, Path := widgets, Data := some [], RawData := ['{', '}'] } },
       { rows := [{ ID := 1, Path := widgets, RawData := ['{', '}'] }], seq := 1 }) ∧
    (createHandler digitConv widgets emptyDB false trailingBody).1.status ≠ StatusBadRequest ∧
    (createHandler digitConv widgets emptyDB false trailingBody).2 ≠ emptyDB :=
  ⟨by decide, rfl, rfl, rfl, by decide, by decide⟩

/-- Once an identity has been given out to a row of path `a`, no request
gives it to another row: the sequence stays at or above it and every row that
carries it has path `a`. -/
theorem serve_identity {F : Type} (sc : Strconv F) (a : String) (id : Nat) (db : DB)
    (request : Request) (hseq : id ≤ db.seq)
    (hrows : ∀ r ∈ db.rows, r.ID = id → r.Path = a) :
    id ≤ (serve sc db request).seq ∧ ∀ r ∈ (serve sc db request).rows, r.ID = id → r.Path = a := by
  cases request with
  | get p f =>
    simp only [serve, listHandler_db]
    exact ⟨hseq, hrows⟩
  | post p body f =>
    simp only [serve]
    rcases createHandler_cases sc p db f body with h | h | h
    · rw [h.2]
      exact ⟨hseq, hrows⟩
    · obtain ⟨v, e, _, h2⟩ := h
      rw [h2]
      exact ⟨hseq, hrows⟩
    · obtain ⟨v, raw, _, _, _, h2⟩ := h
      rw [h2]
      have hlt := (lt_nextID db).1
      refine ⟨by simp only; omega, ?_⟩
      intro r hr hid
      rcases List.mem_append.1 hr with hold | hnew
      · exact hrows r hold hid
      · rw [List.mem_singleton.1 hnew] at hid
        simp only at hid
        omega

theorem serveAll_identity {F : Type} (sc : Strconv F) (a : String) (id : Nat) :
    ∀ (requests : List Request) (db : DB), id ≤ db.seq →
      (∀ r ∈ db.rows, r.ID = id → r.Path = a) →
      ∀ r ∈ (serveAll sc db requests).rows, r.ID = id → r.Path = a
  | [], _, _, h => h
  | request :: requests, db, hseq, hrows => by
    obtain ⟨h1, h2⟩ := serve_identity sc a id db request hseq hrows
    exact serveAll_identity sc a id requests (serve sc db request) h1 h2

/-- C6. Path isolation: for paths `a ≠ b`, a successful create request on `a`
stores one row, with path `a` and the identity of the response; a successful
list request on `b`, at once or after any sequence of further requests,
returns no record with that identity, so the created record is not in the
listing; and every record a list request on `b` returns, whatever the
database, has path `b`. -/
theorem path_isolation {F : Type} (sc : Strconv F) (a b : String) (hab : a ≠ b)
    (db db1 : DB) (dbFails : Bool) (body : Text) (item : RequestItem F)
    (hcreate : createHandler sc a db dbFails body =
      ({ status := StatusOK, body := .item item }, db1))
    (requests : List Request) (db3 : DB) (dbFails2 : Bool) (items : List (RequestItem F))
    (hlist : listHandler sc b (serveAll sc db1 requests) dbFails2 =
      ({ status := StatusOK, body := .items items }, db3)) :
    item.Path = a ∧
    db1.rows = db.rows ++ [{ ID := item.ID, Path := a, RawData := item.RawData }] ∧
    (∀ r ∈ db.rows, r.ID ≠ item.ID) ∧
    (∀ r ∈ items, r.ID ≠ item.ID) ∧
    item ∉ items ∧
    (∀ r ∈ (serveAll sc db1 requests).rows, r.ID = item.ID → r.Path = a) ∧
    (∀ (db2 db4 : DB) (dbFails4 : Bool) (items2 : List (RequestItem F)),
      listHandler sc b db2 dbFails4 = ({ status := StatusOK, body := .items items2 }, db4) →
      ∀ r ∈ items2, r.Path = b) := by
  obtain ⟨v, raw, _, _, _, hi, hdb⟩ := createHandler_ok sc a db db1 dbFails body item hcreate
  have hold : ∀ r ∈ db.rows, r.ID ≠ nextID db := fun r hr =>
    Nat.ne_of_lt ((lt_nextID db).2 r hr)
  have hinv : ∀ r ∈ (serveAll sc db1 requests).rows, r.ID = nextID db → r.Path = a := by
    apply serveAll_identity sc a (nextID db) requests db1
    · rw [hdb]
    · intro r hr hid
      rw [hdb] at hr
      rcases List.mem_append.1 hr with h1 | h1
      · exact absurd hid (hold r h1)
      · rw [List.mem_singleton.1 h1]
  have hids : ∀ r ∈ items, r.ID ≠ nextID db := by
    intro r hr hid
    obtain ⟨row, hrow, hp, h1, _, _⟩ :=
      Find_rows sc _ dbFails2 b items (listHandler_ok sc b _ db3 dbFails2 items hlist) r hr
    exact hab ((hinv row hrow (by rw [← h1, hid])).symm.trans hp)
  subst hi
  refine ⟨rfl, by rw [hdb], hold, hids, ?_, hinv, ?_⟩
  · intro hmem
    exact hids _ hmem rfl
  · intro db2 db4 dbFails4 items2 h
    exact Find_path sc db2 dbFails4 b items2 (listHandler_ok sc b db2 db4 dbFails4 items2 h)

/-- C6 at the paths `/widgets` and `/gadgets`: after a record is created
through `/widgets` and another through `/gadgets`, the listing of `/gadgets`
holds the second and not the first. -/
theorem path_isolation_witness :
    widgets ≠ gadgets ∧
    createHandler digitConv widgets emptyDB false boltBody =
      ({ status := StatusOK, body := .item boltItem }, boltDB) ∧
    listHandler digitConv gadgets (serveAll digitConv boltDB [.post gadgets boltBody false]) false =
      ({ status := StatusOK,
         body := .items [{ ID := 2, Path := gadgets, Data := boltData, RawData := boltBody }] },
       serveAll digitConv boltDB [.post gadgets boltBody false]) ∧
    ∀ r ∈ [({ ID := 2, Path := gadgets, Data := boltData, RawData := boltBody } :
        RequestItem (Fin 10))], r.ID ≠ boltItem.ID :=
  ⟨by decide, rfl, rfl,
    (path_isolation digitConv widgets gadgets (by decide) emptyDB boltDB false boltBody boltItem rfl
      [.post gadgets boltBody false] _ false _ rfl).2.2.2.1⟩

/-- C8. Corrupt record surfaced: when some row with the queried path holds a
text that is not well-formed JSON, the list handler answers 500 with an error
body, whether or not the storage engine fails; it does not answer 200. -/
theorem corrupt_record_surfaced {F : Type} (sc : Strconv F) (path : String) (db : DB)
    (dbFails : Bool) (r : Row) (hr : r ∈ db.rows) (hp : r.Path = path)
    (hbad : Valid r.RawData = false) :
    ∃ e, listHandler sc path db dbFails =
      (({ status := StatusInternalServerError, body := .error e } : Response F), db) := by
  simp only [listHandler, Find]
  cases dbFails with
  | true => exact ⟨.storage, rfl⟩
  | false =>
    simp only [Bool.false_eq_true, if_false]
    have hmem : (scanRow r : RequestItem F) ∈
        (db.rows.filter (fun r : Row => decide (r.Path = path))).map scanRow :=
      List.mem_map.2 ⟨r, List.mem_filter.2 ⟨hr, by simpa using hp⟩, rfl⟩
    have herr : AfterFind sc (scanRow r : RequestItem F) = .error .decoding :=
      AfterFind_error sc _ (Unmarshal_invalid sc _ _ hbad)
    obtain ⟨e, he⟩ := afterQuery_error sc _ _ _ hmem herr
    rw [he]
    exact ⟨e, rfl⟩

/-- C8 at a database whose row for `/widgets` holds the text `{`. -/
theorem corrupt_record_surfaced_witness :
    Valid ['{'] = false ∧
    ∃ e, listHandler digitConv widgets corruptDB false =
      (({ status := StatusInternalServerError, body := .error e } : Response (Fin 10)),
        corruptDB) :=
  ⟨by decide,
    corrupt_record_surfaced digitConv widgets corruptDB false
      { ID := 1, Path := widgets, RawData := ['{'] } (List.mem_singleton.2 rfl) rfl (by decide)⟩

theorem serve_keeps_rows {F : Type} (sc : Strconv F) (db : DB) (request : Request) :
    db.rows <+: (serve sc db request).rows := by
  cases request with
  | get p f =>
    simp only [serve, listHandler_db]
    exact List.prefix_refl _
  | post p body f =>
    simp only [serve]
    rcases createHandler_cases sc p db f body with h | h | h
    · rw [h.2]
    · obtain ⟨v, e, _, h2⟩ := h
      rw [h2]
    · obtain ⟨v, raw, _, _, _, h2⟩ := h
      rw [h2]
      exact List.prefix_append _ _

theorem serveAll_keeps_rows {F : Type} (sc : Strconv F) : ∀ (requests : List Request) (db : DB),
    db.rows <+: (serveAll sc db requests).rows
  | [], _ => List.prefix_refl _
  | request :: requests, db =>
    List.IsPrefix.trans (serve_keeps_rows sc db request)
      (serveAll_keeps_rows sc requests (serve sc db request))

/-- C9. Append-only store: a successful create request appends one row, the
one of the record in the response, after the rows already stored, which it
leaves as they are; a create request that does not answer 200 and every list
request leave the database unchanged; after any registered handler has run,
and after any sequence of requests, the rows stored before are still there,
in place and unchanged. -/
theorem append_only {F : Type} (sc : Strconv F) (path : String) (db : DB) (dbFails : Bool)
    (body : Text) :
    (∀ item db1, createHandler sc path db dbFails body =
        ({ status := StatusOK, body := .item item }, db1) →
      db1.rows = db.rows ++ [{ ID := item.ID, Path := item.Path, RawData := item.RawData }]) ∧
    ((createHandler sc path db dbFails body).1.status ≠ StatusOK →
      (createHandler sc path db dbFails body).2 = db) ∧
    (listHandler sc path db dbFails : Response F × DB).2 = db ∧
    (∀ router h,
      db.rows <+: (runHandler sc router h db dbFails body : Response F × DB).2.rows) ∧
    (∀ requests, db.rows <+: (serveAll sc db requests).rows) := by
  have hpre : db.rows <+: (createHandler sc path db dbFails body).2.rows := by
    rcases createHandler_cases sc path db dbFails body with h | h | h
    · rw [h.2]
    · obtain ⟨v, e, _, h2⟩ := h
      rw [h2]
    · obtain ⟨v, raw, _, _, _, h2⟩ := h
      rw [h2]
      exact List.prefix_append _ _
  refine ⟨?_, ?_, listHandler_db sc path db dbFails, ?_, fun requests => serveAll_keeps_rows sc requests db⟩
  · intro item db1 h
    obtain ⟨v, raw, _, _, _, hi, hdb⟩ := createHandler_ok sc path db db1 dbFails body item h
    rw [hdb, hi]
  · intro hs
    rcases createHandler_cases sc path db dbFails body with h | h | h
    · rw [h.2]
    · obtain ⟨v, e, _, h2⟩ := h
      rw [h2]
    · obtain ⟨v, raw, _, _, _, h2⟩ := h
      rw [h2] at hs
      exact absurd rfl hs
  · intro router h
    cases h with
    | create i =>
      simp only [runHandler]
      rcases createHandler_cases sc (capturedPath router (.create i)) db dbFails body with h | h | h
      · rw [h.2]
      · obtain ⟨v, e, _, h2⟩ := h
        rw [h2]
      · obtain ⟨v, raw, _, _, _, h2⟩ := h
        rw [h2]
        exact List.prefix_append _ _
    | list i =>
      simp only [runHandler]
      rw [listHandler_db]

/-- C10. Empty-path listing: when no row has the queried path (the empty
database is such a case) and the storage engine does not fail, the list
handler answers 200 with an empty sequence and leaves the database as it is. -/
theorem empty_path_listing {F : Type} (sc : Strconv F) (path : String) (db : DB)
    (hnone : ∀ r ∈ db.rows, r.Path ≠ path) :
    listHandler sc path db false =
      (({ status := StatusOK, body := .items [] } : Response F), db) := by
  have hf : db.rows.filter (fun r : Row => decide (r.Path = path)) = [] := by
    apply List.filter_eq_nil_iff.2
    intro r hr
    simpa using hnone r hr
  simp only [listHandler, Find, Bool.false_eq_true, if_false, hf, List.map_nil, afterQuery]

/-- C10 at a database without a row for `/gadgets`, and at the empty database. -/
theorem empty_path_listing_witness :
    (∀ r ∈ boltDB.rows, r.Path ≠ gadgets) ∧
    listHandler digitConv gadgets boltDB false =
      (({ status := StatusOK, body := .items [] } : Response (Fin 10)), boltDB) ∧
    listHandler digitConv widgets emptyDB false =
      (({ status := StatusOK, body := .items [] } : Response (Fin 10)), emptyDB) :=
  ⟨by decide, empty_path_listing digitConv gadgets boltDB (by decide),
    rfl⟩

/-! ## The registration loop -/

theorem foldl_registerMethod {Op : Type} (path : String) (pathVar : Nat) :
    ∀ (ops : List (String × Op)) (r : Router),
      ops.foldl (fun r op => registerMethod path pathVar r op.1) r =
        { routes := r.routes ++ routesOf pathVar (path, ops), vars := r.vars }
  | [], r => by simp [routesOf]
  | op :: ops, r => by
    rw [List.foldl_cons, foldl_registerMethod path pathVar ops]
    simp only [registerMethod, routesOf]
    by_cases h1 : op.1 = MethodPost
    · simp [h1, List.filterMap_cons]
    · have hne : MethodGet ≠ MethodPost := by decide
      by_cases h2 : op.1 = MethodGet
      · simp [h2, hne, List.filterMap_cons]
      · simp [h1, h2, List.filterMap_cons]

theorem registerPath_perIteration {Op : Type} (r : Router) (entry : String × List (String × Op)) :
    registerPath .perIteration r entry =
      { routes := r.routes ++ routesOf r.vars.length entry, vars := r.vars ++ [entry.1] } := by
  simp only [registerPath, foldl_registerMethod]

theorem registerPath_perLoop {Op : Type} (r : Router) (entry : String × List (String × Op)) :
    registerPath .perLoop r entry =
      { routes := r.routes ++ routesOf 0 entry, vars := [entry.1] } := by
  simp only [registerPath, foldl_registerMethod]

theorem routesOf_keys {Op : Type} (pathVar : Nat) (path : String) :
    ∀ (ops : List (String × Op)),
      (routesOf pathVar (path, ops)).map (fun r => (r.method, r.path)) =
        (ops.filter (fun op => op.1 = MethodPost ∨ op.1 = MethodGet)).map (fun op => (op.1, path))
  | [] => rfl
  | op :: ops => by
    have ih := routesOf_keys pathVar path ops
    simp only [routesOf] at ih ⊢
    by_cases h1 : op.1 = MethodPost
    · simp [h1, List.filterMap_cons, List.filter_cons, ih]
    · have hne : MethodGet ≠ MethodPost := by decide
      by_cases h2 : op.1 = MethodGet
      · simp [h2, hne, List.filterMap_cons, List.filter_cons, ih]
      · simp [h1, h2, List.filterMap_cons, List.filter_cons, ih]

theorem registerPath_keys {Op : Type} (sem : LoopVar) (r : Router)
    (entry : String × List (String × Op)) :
    (registerPath sem r entry).routes.map (fun r => (r.method, r.path)) =
      r.routes.map (fun r => (r.method, r.path)) ++
        (entry.2.filter (fun op => op.1 = MethodPost ∨ op.1 = MethodGet)).map
          (fun op => (op.1, entry.1)) := by
  cases sem with
  | perIteration => rw [registerPath_perIteration, List.map_append, routesOf_keys]
  | perLoop => rw [registerPath_perLoop, List.map_append, routesOf_keys]

theorem foldl_registerPath_keys {Op : Type} (sem : LoopVar) :
    ∀ (doc : List (String × List (String × Op))) (r : Router),
      (doc.foldl (registerPath sem) r).routes.map (fun r => (r.method, r.path)) =
        r.routes.map (fun r => (r.method, r.path)) ++ declaredRoutes doc
  | [], r => by simp [declaredRoutes]
  | entry :: doc, r => by
    rw [List.foldl_cons, foldl_registerPath_keys sem doc, registerPath_keys]
    simp [declaredRoutes, List.flatMap_cons]

theorem routesOf_kind {Op : Type} (pathVar : Nat) (entry : String × List (String × Op))
    (route : Route) (h : route ∈ routesOf pathVar entry) :
    route.path = entry.1 ∧
      ((route.method = MethodPost ∧ route.handler = .create pathVar) ∨
       (route.method = MethodGet ∧ route.handler = .list pathVar)) := by
  simp only [routesOf, List.mem_filterMap] at h
  obtain ⟨op, _, hop⟩ := h
  by_cases h1 : op.1 = MethodPost
  · simp only [h1, if_true, Option.some.injEq] at hop
    subst hop
    exact ⟨rfl, Or.inl ⟨rfl, rfl⟩⟩
  · by_cases h2 : op.1 = MethodGet
    · have hne : MethodGet ≠ MethodPost := by decide
      simp only [h2, hne, if_true, if_false, Option.some.injEq] at hop
      subst hop
      exact ⟨rfl, Or.inr ⟨rfl, rfl⟩⟩
    · simp [h1, h2] at hop

/-- With a variable `path` per iteration, every registered closure refers to
an instance of `path` that holds the path of its route. -/
theorem foldl_registerPath_captured {Op : Type} :
    ∀ (doc : List (String × List (String × Op))) (r : Router),
      (∀ route ∈ r.routes, ∃ i, r.vars[i]? = some route.path ∧
        ((route.method = MethodPost ∧ route.handler = .create i) ∨
         (route.method = MethodGet ∧ route.handler = .list i))) →
      ∀ route ∈ (doc.foldl (registerPath .perIteration) r).routes,
        ∃ i, (doc.foldl (registerPath .perIteration) r).vars[i]? = some route.path ∧
          ((route.method = MethodPost ∧ route.handler = .create i) ∨
           (route.method = MethodGet ∧ route.handler = .list i))
  | [], _, h => h
  | entry :: doc, r, h => by
    rw [List.foldl_cons]
    apply foldl_registerPath_captured doc
    rw [registerPath_perIteration]
    intro route hroute
    rcases List.mem_append.1 hroute with hold | hnew
    · obtain ⟨i, hi, hk⟩ := h route hold
      refine ⟨i, ?_, hk⟩
      have hlt : i < r.vars.length := by
        by_contra hge
        rw [List.getElem?_eq_none (not_lt.1 hge)] at hi
        exact Option.noConfusion hi
      simp only [List.getElem?_append_left hlt, hi]
    · obtain ⟨hp, hk⟩ := routesOf_kind _ entry route hnew
      refine ⟨r.vars.length, ?_, hk⟩
      simp [hp]

theorem mem_declaredRoutes {Op : Type} (doc : List (String × List (String × Op)))
    (m p : String) :
    (m, p) ∈ declaredRoutes doc ↔
      (m = MethodPost ∨ m = MethodGet) ∧ ∃ ops, (p, ops) ∈ doc ∧ ∃ op, (m, op) ∈ ops := by
  simp only [declaredRoutes, List.mem_flatMap, List.mem_map, List.mem_filter, Prod.mk.injEq,
    decide_eq_true_eq]
  constructor
  · rintro ⟨entry, he, op, ⟨hop, hm⟩, rfl, rfl⟩
    exact ⟨hm, entry.2, he, op.2, hop⟩
  · rintro ⟨hm, ops, he, op, hop⟩
    exact ⟨(p, ops), he, (m, op), ⟨hop, hm⟩, rfl, rfl⟩

theorem declaredRoutes_nodup {Op : Type} : ∀ (doc : List (String × List (String × Op))),
    (doc.map Prod.fst).Nodup → (∀ entry ∈ doc, (entry.2.map Prod.fst).Nodup) →
    (declaredRoutes doc).Nodup
  | [], _, _ => List.nodup_nil
  | entry :: doc, hp, hm => by
    rw [List.map_cons] at hp
    have hp' := List.nodup_cons.1 hp
    have ih := declaredRoutes_nodup doc hp'.2 (fun e he => hm e (List.mem_cons_of_mem _ he))
    have hops := hm entry (List.mem_cons_self _ _)
    have hfil : ((entry.2.filter (fun op => op.1 = MethodPost ∨ op.1 = MethodGet)).map
        Prod.fst).Nodup :=
      List.Nodup.sublist (List.Sublist.map _ (List.filter_sublist _)) hops
    have hhead : ((entry.2.filter (fun op => op.1 = MethodPost ∨ op.1 = MethodGet)).map
        (fun op => (op.1, entry.1))).Nodup := by
      refine List.Nodup.map_on ?_ (List.Nodup.of_map _ hfil)
      intro x hx y hy hxy
      exact List.inj_on_of_nodup_map hfil hx hy (by simpa using hxy)
    simp only [declaredRoutes, List.flatMap_cons]
    refine List.nodup_append.2 ⟨hhead, ih, ?_⟩
    intro a ha hb
    obtain ⟨op, _, rfl⟩ := List.mem_map.1 ha
    obtain ⟨_, ops, hdoc, _⟩ := (mem_declaredRoutes doc op.1 entry.1).1 hb
    exact hp'.1 (List.mem_map.2 ⟨(entry.1, ops), hdoc, rfl⟩)

theorem routesOf_erase {Op : Type} (pathVar : Nat) (entry : String × List (String × Op)) :
    routesOf pathVar (entry.1, entry.2.map (fun op => (op.1, ()))) = routesOf pathVar entry := by
  simp only [routesOf, List.filterMap_map]
  rfl

theorem registerPath_erase {Op : Type} (sem : LoopVar) (r : Router)
    (entry : String × List (String × Op)) :
    registerPath sem r (entry.1, entry.2.map (fun op => (op.1, ()))) = registerPath sem r entry := by
  cases sem with
  | perIteration => rw [registerPath_perIteration, registerPath_perIteration, routesOf_erase]
  | perLoop => rw [registerPath_perLoop, registerPath_perLoop, routesOf_erase]

theorem foldl_registerPath_erase {Op : Type} (sem : LoopVar) :
    ∀ (doc : List (String × List (String × Op))) (r : Router),
      (eraseOperations doc).foldl (registerPath sem) r = doc.foldl (registerPath sem) r
  | [], _ => rfl
  | entry :: doc, r => by
    simp only [eraseOperations, List.map_cons, List.foldl_cons]
    rw [registerPath_erase]
    exact foldl_registerPath_erase sem doc _

theorem foldl_registerPath_kind {Op : Type} (sem : LoopVar) :
    ∀ (doc : List (String × List (String × Op))) (r : Router),
      (∀ route ∈ r.routes,
        (route.method = MethodPost ∧ ∃ i, route.handler = .create i) ∨
        (route.method = MethodGet ∧ ∃ i, route.handler = .list i)) →
      ∀ route ∈ (doc.foldl (registerPath sem) r).routes,
        (route.method = MethodPost ∧ ∃ i, route.handler = .create i) ∨
        (route.method = MethodGet ∧ ∃ i, route.handler = .list i)
  | [], _, h => h
  | entry :: doc, r, h => by
    rw [List.foldl_cons]
    apply foldl_registerPath_kind sem doc
    have key : ∀ i, ∀ route ∈ r.routes ++ routesOf i entry,
        (route.method = MethodPost ∧ ∃ i, route.handler = .create i) ∨
        (route.method = MethodGet ∧ ∃ i, route.handler = .list i) := by
      intro i route hroute
      rcases List.mem_append.1 hroute with hold | hnew
      · exact h route hold
      · rcases (routesOf_kind i entry route hnew).2 with hk | hk
        · exact Or.inl ⟨hk.1, i, hk.2⟩
        · exact Or.inr ⟨hk.1, i, hk.2⟩
    cases sem with
    | perIteration => rw [registerPath_perIteration]; exact key _
    | perLoop => rw [registerPath_perLoop]; exact key _

/-- With a variable `path` per iteration (Go since version 1.22): for every
contract, the closure registered under a route reads, when it runs, the path
of that route; the handler registered for POST under route `p` is the create
handler for `p`, whose record is stored with path `p`, and the handler
registered for GET under route `p` is the list handler for `p`. -/
theorem path_capture {Op F : Type} (sc : Strconv F) (doc : List (String × List (String × Op)))
    (route : Route) (hroute : route ∈ (registerRoutes .perIteration doc).routes) :
    capturedPath (registerRoutes .perIteration doc) route.handler = route.path ∧
    (route.method = MethodPost ∨ route.method = MethodGet) ∧
    (route.method = MethodPost → ∀ db dbFails body,
      runHandler sc (registerRoutes .perIteration doc) route.handler db dbFails body =
        createHandler sc route.path db dbFails body) ∧
    (route.method = MethodGet → ∀ db dbFails body,
      runHandler sc (registerRoutes .perIteration doc) route.handler db dbFails body =
        listHandler sc route.path db dbFails) ∧
    (∀ db dbFails body item db1,
      runHandler sc (registerRoutes .perIteration doc) route.handler db dbFails body =
        ({ status := StatusOK, body := .item item }, db1) →
      item.Path = route.path ∧
      db1.rows = db.rows ++ [{ ID := item.ID, Path := route.path, RawData := item.RawData }]) := by
  obtain ⟨i, hi, hk⟩ := foldl_registerPath_captured doc { routes := [], vars := [] }
    (fun _ h => absurd h (List.not_mem_nil _)) route hroute
  have hne : MethodGet ≠ MethodPost := by decide
  have hget : (registerRoutes .perIteration doc).vars.getD i "" = route.path := by
    rw [List.getD_eq_getElem?_getD]
    simp only [registerRoutes, hi, Option.getD_some]
  rcases hk with ⟨hm, hh⟩ | ⟨hm, hh⟩
  · have hc : capturedPath (registerRoutes .perIteration doc) route.handler = route.path := by
      rw [hh]; exact hget
    refine ⟨hc, Or.inl hm, ?_, ?_, ?_⟩
    · intro _ db dbFails body
      rw [hh] at hc ⊢
      simp only [runHandler, hc]
    · intro h
      rw [hm] at h
      exact absurd h.symm hne
    · intro db dbFails body item db1 h
      rw [hh] at hc h
      simp only [runHandler, hc] at h
      obtain ⟨v, raw, _, _, _, hitem, hdb⟩ := createHandler_ok sc _ _ _ _ _ _ h
      rw [hitem, hdb]
      exact ⟨rfl, rfl⟩
  · have hc : capturedPath (registerRoutes .perIteration doc) route.handler = route.path := by
      rw [hh]; exact hget
    refine ⟨hc, Or.inr hm, ?_, ?_, ?_⟩
    · intro h
      rw [hm] at h
      exact absurd h hne
    · intro _ db dbFails body
      rw [hh] at hc ⊢
      simp only [runHandler, hc]
    · intro db dbFails body item db1 h
      rw [hh] at hc h
      simp only [runHandler, hc] at h
      simp only [listHandler] at h
      cases hf : Find sc db dbFails route.path with
      | error e => simp [hf, StatusOK, StatusInternalServerError] at h
      | ok found => simp [hf] at h

/-- The same at a contract with two paths. -/
theorem path_capture_witness :
    ({ method := MethodPost, path := widgets, handler := .create 0 } : Route) ∈
      (registerRoutes .perIteration sampleDoc).routes ∧
    ({ method := MethodPost, path := gadgets, handler := .create 1 } : Route) ∈
      (registerRoutes .perIteration sampleDoc).routes ∧
    capturedPath (registerRoutes .perIteration sampleDoc) (.create 0) = widgets ∧
    runHandler digitConv (registerRoutes .perIteration sampleDoc) (.create 0) emptyDB false boltBody =
      createHandler digitConv widgets emptyDB false boltBody :=
  ⟨by decide, by decide,
    (path_capture digitConv sampleDoc { method := MethodPost, path := widgets, handler := .create 0 }
      (by decide)).1,
    (path_capture digitConv sampleDoc { method := MethodPost, path := widgets, handler := .create 0 }
      (by decide)).2.2.1 rfl emptyDB false boltBody⟩

/-- C3. With one variable `path` for the whole loop (Go before version 1.22;
the loop body binds no copy) the closures of all routes read the path of the
last iteration.  For the contract with `/widgets` (GET, POST) and `/gadgets`
(POST, DELETE), visited in this order: the create handler registered under
`/widgets` stores its record with path `/gadgets`, and the list handler
registered under `/widgets` queries `/gadgets`, so that it does not return the
record stored for `/widgets`. -/
theorem path_capture_lost :
    ({ method := MethodPost, path := widgets, handler := .create 0 } : Route) ∈
      (registerRoutes .perLoop sampleDoc).routes ∧
    ({ method := MethodGet, path := widgets, handler := .list 0 } : Route) ∈
      (registerRoutes .perLoop sampleDoc).routes ∧
    capturedPath (registerRoutes .perLoop sampleDoc) (.create 0) = gadgets ∧
    runHandler digitConv (registerRoutes .perLoop sampleDoc) (.create 0) emptyDB false boltBody =
      ({ status := StatusOK,
         body := .item { ID := 1, Path := gadgets, Data := boltData, RawData := boltBody } },
       { rows := [{ ID := 1, Path := gadgets, RawData := boltBody }], seq := 1 }) ∧
    runHandler digitConv (registerRoutes .perLoop sampleDoc) (.list 0) boltDB false [] =
      listHandler digitConv gadgets boltDB false ∧
    runHandler digitConv (registerRoutes .perLoop sampleDoc) (.list 0) boltDB false [] =
      ({ status := StatusOK, body := .items [] }, boltDB) :=
  ⟨by decide, by decide, by decide, rfl, rfl, rfl⟩

/-- C7. Method filtering: for every contract, in the order the loop visits
it, the registrations made are exactly the declared `(POST, p)` and
`(GET, p)` pairs, a create handler for POST and a list handler for GET; a pair
is registered if and only if its method is POST or GET and the path declares
it, and, the keys of the two maps being distinct, it is registered once; any
other method registers nothing and the loop does not fail; and the
registrations are the same when every operation descriptor is erased. -/
theorem method_filtering {Op : Type} (sem : LoopVar) (doc : List (String × List (String × Op)))
    (hpaths : (doc.map Prod.fst).Nodup)
    (hmethods : ∀ entry ∈ doc, (entry.2.map Prod.fst).Nodup) :
    (registerRoutes sem doc).routes.map (fun r => (r.method, r.path)) = declaredRoutes doc ∧
    (∀ m p, (m, p) ∈ declaredRoutes doc ↔
      (m = MethodPost ∨ m = MethodGet) ∧ ∃ ops, (p, ops) ∈ doc ∧ ∃ op, (m, op) ∈ ops) ∧
    (declaredRoutes doc).Nodup ∧
    (∀ route ∈ (registerRoutes sem doc).routes,
      (route.method = MethodPost ∧ ∃ i, route.handler = .create i) ∨
      (route.method = MethodGet ∧ ∃ i, route.handler = .list i)) ∧
    registerRoutes sem (eraseOperations doc) = registerRoutes sem doc := by
  refine ⟨?_, mem_declaredRoutes doc, declaredRoutes_nodup doc hpaths hmethods, ?_, ?_⟩
  · have := foldl_registerPath_keys sem doc { routes := [], vars := [] }
    simpa [registerRoutes] using this
  · exact foldl_registerPath_kind sem doc _ (fun _ h => absurd h (List.not_mem_nil _))
  · exact foldl_registerPath_erase sem doc _

/-- C7 at a contract with two paths: DELETE registers nothing. -/
theorem method_filtering_witness :
    (sampleDoc.map Prod.fst).Nodup ∧ (∀ entry ∈ sampleDoc, (entry.2.map Prod.fst).Nodup) ∧
    (registerRoutes .perIteration sampleDoc).routes.map (fun r => (r.method, r.path)) =
      [("GET", widgets), ("POST", widgets), ("POST", gadgets)] :=
  ⟨by decide, by decide,
    (method_filtering .perIteration sampleDoc (by decide) (by decide)).1.trans (by decide)⟩

end MockMgmt
